import Mathlib

/-!
Verification development for the ai-text-spotter backend.

The Python sources are shallowly embedded: Python floats are modelled as
exact rationals (`ℚ`), except where a genuinely irrational operation
(`math.log2`) occurs, which is modelled over `ℝ`.  Python's
`round(x, 4)` is modelled as exact decimal round-half-even (`round4`).
Strings are modelled as `List Char`; the ASCII fragment of Python's
`\w`, `[A-Z]`, whitespace and `str.lower()` is used.
-/

namespace AiTextSpotter

/-! ## Decimal rounding (Python `round(x, 4)`)

Python's `round` rounds half to even.  `roundHalfEven` is that rule on an
ordered field with a floor, `round4` is `round(x, 4)`. -/

/-- Round half to even: the nearest integer, ties going to the even one. -/
def roundHalfEven {α : Type} [LinearOrderedField α] [FloorRing α] (x : α) : ℤ :=
  if x - ⌊x⌋ < 1/2 then ⌊x⌋
  else if 1/2 < x - ⌊x⌋ then ⌊x⌋ + 1
  else if 2 ∣ ⌊x⌋ then ⌊x⌋ else ⌊x⌋ + 1

/-- Python `round(x, 4)`: round half to even at the fourth decimal. -/
def round4 {α : Type} [LinearOrderedField α] [FloorRing α] (x : α) : α :=
  (roundHalfEven (x * 10000) : α) / 10000

theorem roundHalfEven_le {α : Type} [LinearOrderedField α] [FloorRing α]
    (x : α) (m : ℤ) (h : x ≤ m) : roundHalfEven x ≤ m := by
  unfold roundHalfEven
  have hfl : ⌊x⌋ ≤ m := Int.floor_le_floor h |>.trans_eq (Int.floor_intCast m)
  split_ifs with h1 h2 h3
  · exact hfl
  · -- the fractional part is at least 1/2, so x is not an integer and ⌊x⌋ < m
    push_neg at h1
    have hx : (⌊x⌋ : α) < x := by linarith
    have : ⌊x⌋ < m := by
      by_contra hc
      push_neg at hc
      have : (m : α) ≤ (⌊x⌋ : α) := by exact_mod_cast hc
      linarith
    omega
  · exact hfl
  · push_neg at h1
    have hx : (⌊x⌋ : α) < x := by linarith
    have : ⌊x⌋ < m := by
      by_contra hc
      push_neg at hc
      have : (m : α) ≤ (⌊x⌋ : α) := by exact_mod_cast hc
      linarith
    omega

theorem le_roundHalfEven {α : Type} [LinearOrderedField α] [FloorRing α]
    (x : α) (m : ℤ) (h : (m : α) ≤ x) : m ≤ roundHalfEven x := by
  unfold roundHalfEven
  have hfl : m ≤ ⌊x⌋ := Int.le_floor.mpr h
  split_ifs <;> omega

theorem round4_le {α : Type} [LinearOrderedField α] [FloorRing α]
    (x : α) (m : ℤ) (h : x ≤ (m : α) / 10000) : round4 x ≤ (m : α) / 10000 := by
  unfold round4
  have hx : x * 10000 ≤ (m : α) := by
    calc x * 10000 ≤ ((m : α) / 10000) * 10000 :=
          mul_le_mul_of_nonneg_right h (by norm_num)
      _ = (m : α) := by field_simp
  have := roundHalfEven_le (x * 10000) m hx
  exact div_le_div_of_nonneg_right (by exact_mod_cast this) (by norm_num)

theorem le_round4 {α : Type} [LinearOrderedField α] [FloorRing α]
    (x : α) (m : ℤ) (h : (m : α) / 10000 ≤ x) : (m : α) / 10000 ≤ round4 x := by
  unfold round4
  have hx : (m : α) ≤ x * 10000 := by
    have : ((m : α) / 10000) * 10000 ≤ x * 10000 :=
      mul_le_mul_of_nonneg_right h (by norm_num)
    calc (m : α) = ((m : α) / 10000) * 10000 := by field_simp
      _ ≤ x * 10000 := this
  have := le_roundHalfEven (x * 10000) m hx
  exact div_le_div_of_nonneg_right (by exact_mod_cast this) (by norm_num)

/-! ## Jury detector (`backend/app/detectors/jury.py`)

`JuryDetector.decide` asks an external Groq model for the final verdict.
The HTTP transport and the JSON deserialiser are outside the embedding:
the outcome of `_call_groq_api` together with the result of `json.loads`
on the (markdown-stripped) response body is modelled by `ApiOutcome`.
`ApiOutcome.failure` stands for any exception raised while building the
prompt or calling the API (transport error, timeout, non-2xx status);
`ApiOutcome.success p` stands for a response body whose JSON parse
result is `p` — `none` when `json.loads` raises, the loaded object is
not a dict, or `float(...)` on its confidence field raises (all of which
are caught inside `_parse_response`), `some fields` otherwise. -/

/-- The dict returned by `JuryDetector.decide` and its helpers. -/
structure JuryResult where
  classification : String
  confidence : ℚ
  reasoning : String
  deriving DecidableEq, Repr

/-- The relevant fields of a successfully JSON-parsed Groq response:
`none` in a field models a missing key (Python's `dict.get` default). -/
structure ParsedFields where
  classification : Option String
  confidence : Option ℚ
  reasoning : Option String
  deriving DecidableEq, Repr

/-- Outcome of `_call_groq_api` plus JSON deserialisation, see above. -/
inductive ApiOutcome where
  | failure
  | success (parsed : Option ParsedFields)
  deriving DecidableEq, Repr

/-- `JuryDetector._fallback_decision`: simple voting over the two
detector scores (`dict.get('score', 0.5)` is modelled by passing the
scores directly, as every caller supplies them). -/
def fallback_decision (math_score llm_score : ℚ) : JuryResult :=
  let avg_score := (math_score + llm_score) / 2
  if avg_score > 6/10 then
    ⟨"human", round4 avg_score, "Both detectors indicate human writing"⟩
  else if avg_score < 4/10 then
    ⟨"ai", round4 (1 - avg_score), "Both detectors indicate AI-generated text"⟩
  else
    ⟨"suspicious", round4 (1/2), "Mixed signals from detectors"⟩

/-- `JuryDetector._parse_response` applied to the parse outcome of the
response body (the markdown-stripping happens before `json.loads` and is
folded into the modelled parse outcome). -/
def parse_response (parsed : Option ParsedFields) : JuryResult :=
  match parsed with
  | none => ⟨"suspicious", 1/2, "Failed to parse response"⟩
  | some data =>
    let classification := (data.classification.getD "suspicious").toLower
    let confidence := data.confidence.getD (1/2)
    let reasoning := data.reasoning.getD "No reasoning provided"
    let classification :=
      if classification = "human" ∨ classification = "suspicious" ∨ classification = "ai"
      then classification else "suspicious"
    let confidence := max 0 (min 1 confidence)
    ⟨classification, round4 confidence, reasoning⟩

/-- `JuryDetector.decide`: external arbitration when an API key is
configured, with every exception routed to `_fallback_decision`. -/
def jury_decide (available : Bool) (outcome : ApiOutcome)
    (math_score llm_score : ℚ) : JuryResult :=
  if available = false then fallback_decision math_score llm_score
  else
    match outcome with
    | ApiOutcome.failure => fallback_decision math_score llm_score
    | ApiOutcome.success parsed => parse_response parsed

/-! ## Zone classifier (`backend/app/detectors/semantic_embedding.py`)

The sentence-transformer encoding and the embedding-STD computation are
outside the embedding; `classify_zone` models the 5-zone `elif` chain of
`SemanticEmbeddingDetector.detect` on a computed spread (STD) value.
All threshold constants are the exact decimals of the source. -/

def GLOBAL_MEAN_STD_AI : ℚ := 0.036824
def GLOBAL_MEAN_STD_HUMAN : ℚ := 0.030963
def SIGMA_STD_AI : ℚ := 0.003366
def SIGMA_STD_HUMAN : ℚ := 0.004083
def UNCLASSIFIED_LOWER : ℚ := GLOBAL_MEAN_STD_HUMAN + (1/2 * SIGMA_STD_HUMAN)
def UNCLASSIFIED_UPPER : ℚ := GLOBAL_MEAN_STD_AI - (1/2 * SIGMA_STD_AI)
def ZONE_1_ACCURACY : ℚ := 0.8675
def ZONE_2_ACCURACY : ℚ := 0.7465
def ZONE_4_ACCURACY : ℚ := 0.6753
def ZONE_5_ACCURACY : ℚ := 0.9486

/-- The classification part of the dict `SemanticEmbeddingDetector.detect`
returns for a computed STD (score and confidence after the `round(·, 4)`
of the source). -/
structure ZoneResult where
  zone : ℕ
  classification : String
  confidence : ℚ
  score : ℚ
  deriving DecidableEq, Repr

/-- The 5-zone `elif` chain of `SemanticEmbeddingDetector.detect`. -/
def classify_zone (std : ℚ) : ZoneResult :=
  if std > GLOBAL_MEAN_STD_AI then
    ⟨1, "ai", round4 ZONE_1_ACCURACY, round4 (2/100)⟩
  else if UNCLASSIFIED_UPPER < std ∧ std ≤ GLOBAL_MEAN_STD_AI then
    ⟨2, "likely-ai", round4 ZONE_2_ACCURACY, round4 (25/100)⟩
  else if UNCLASSIFIED_LOWER ≤ std ∧ std ≤ UNCLASSIFIED_UPPER then
    ⟨3, "mixed", round4 (1/2), round4 (1/2)⟩
  else if GLOBAL_MEAN_STD_HUMAN ≤ std ∧ std < UNCLASSIFIED_LOWER then
    ⟨4, "likely-human", round4 ZONE_4_ACCURACY, round4 (75/100)⟩
  else
    ⟨5, "human", round4 ZONE_5_ACCURACY, round4 (98/100)⟩

theorem roundHalfEven_eq_low {α : Type} [LinearOrderedField α] [FloorRing α]
    (x : α) (n : ℤ) (h0 : (n : α) ≤ x) (h1 : x < (n : α) + 1/2) :
    roundHalfEven x = n := by
  have hfl : ⌊x⌋ = n := Int.floor_eq_iff.mpr ⟨h0, by linarith⟩
  unfold roundHalfEven
  rw [if_pos]
  · exact hfl
  · rw [hfl]; linarith

theorem roundHalfEven_eq_high {α : Type} [LinearOrderedField α] [FloorRing α]
    (x : α) (n : ℤ) (h0 : (n : α) + 1/2 < x) (h1 : x < (n : α) + 1) :
    roundHalfEven x = n + 1 := by
  have hfl : ⌊x⌋ = n := Int.floor_eq_iff.mpr ⟨by linarith, by linarith⟩
  unfold roundHalfEven
  rw [if_neg, if_pos]
  · exact hfl ▸ rfl
  · rw [hfl]; linarith
  · rw [hfl]; push_neg; linarith

theorem round4_eq_low (x : ℚ) (n : ℤ) (h0 : (n : ℚ) ≤ x * 10000)
    (h1 : x * 10000 < (n : ℚ) + 1/2) : round4 x = (n : ℚ) / 10000 := by
  unfold round4
  rw [roundHalfEven_eq_low (x * 10000) n h0 h1]

theorem round4_eq_high (x : ℚ) (n : ℤ) (h0 : (n : ℚ) + 1/2 < x * 10000)
    (h1 : x * 10000 < (n : ℚ) + 1) : round4 x = ((n : ℚ) + 1) / 10000 := by
  unfold round4
  rw [roundHalfEven_eq_high (x * 10000) n h0 h1]
  push_cast
  ring

theorem round4_half : round4 (1/2 : ℚ) = 1/2 := by
  rw [round4_eq_low (1/2) 5000 (by norm_num) (by norm_num)]
  norm_num

/-! ## Claims about the jury detector and the zone classifier -/

theorem fallback_human_eq (m l : ℚ) (h : (m + l) / 2 > 6/10) :
    fallback_decision m l =
      ⟨"human", round4 ((m + l) / 2), "Both detectors indicate human writing"⟩ := by
  simp only [fallback_decision]
  rw [if_pos h]

theorem fallback_ai_eq (m l : ℚ) (h : (m + l) / 2 < 4/10) :
    fallback_decision m l =
      ⟨"ai", round4 (1 - (m + l) / 2), "Both detectors indicate AI-generated text"⟩ := by
  simp only [fallback_decision]
  rw [if_neg (by linarith), if_pos h]

theorem fallback_suspicious_eq (m l : ℚ) (h0 : 4/10 ≤ (m + l) / 2)
    (h1 : (m + l) / 2 ≤ 6/10) :
    fallback_decision m l = ⟨"suspicious", 1/2, "Mixed signals from detectors"⟩ := by
  simp only [fallback_decision]
  rw [if_neg (by linarith), if_neg (by linarith), round4_half]

/-- C4 (amended): the Arbitrator's fallback decision is a pure function of the
two scores: with average `a` it returns `("human", round(a, 4))` when
`a > 0.6`, `("ai", round(1 - a, 4))` when `a < 0.4`, and `("suspicious", 0.5)`
— a constant confidence, not the average — otherwise; in particular
`decide_fallback(0.8, 0.8) = ("human", 0.8)`,
`decide_fallback(0.1, 0.2) = ("ai", 0.85)` and
`decide_fallback(0.5, 0.5) = ("suspicious", 0.5)`. -/
theorem C4_fallback_pure_function :
    (∀ m l : ℚ,
      ((m + l) / 2 > 6/10 →
        fallback_decision m l =
          ⟨"human", round4 ((m + l) / 2), "Both detectors indicate human writing"⟩) ∧
      ((m + l) / 2 < 4/10 →
        fallback_decision m l =
          ⟨"ai", round4 (1 - (m + l) / 2), "Both detectors indicate AI-generated text"⟩) ∧
      (4/10 ≤ (m + l) / 2 → (m + l) / 2 ≤ 6/10 →
        fallback_decision m l = ⟨"suspicious", 1/2, "Mixed signals from detectors"⟩)) ∧
    fallback_decision (8/10) (8/10) =
      ⟨"human", 8/10, "Both detectors indicate human writing"⟩ ∧
    fallback_decision (1/10) (2/10) =
      ⟨"ai", 85/100, "Both detectors indicate AI-generated text"⟩ ∧
    fallback_decision (1/2) (1/2) =
      ⟨"suspicious", 1/2, "Mixed signals from detectors"⟩ := by
  refine ⟨fun m l => ⟨fallback_human_eq m l, fallback_ai_eq m l,
    fallback_suspicious_eq m l⟩, ?_, ?_, ?_⟩
  · rw [fallback_human_eq _ _ (by norm_num)]
    have : round4 (((8:ℚ)/10 + 8/10) / 2) = (8000 : ℤ) / 10000 :=
      round4_eq_low _ 8000 (by norm_num) (by norm_num)
    rw [this]; norm_num
  · rw [fallback_ai_eq _ _ (by norm_num)]
    have : round4 (1 - ((1:ℚ)/10 + 2/10) / 2) = (8500 : ℤ) / 10000 :=
      round4_eq_low _ 8500 (by norm_num) (by norm_num)
    rw [this]; norm_num
  · exact fallback_suspicious_eq _ _ (by norm_num) (by norm_num)

/-- C4 counterexample: at scores (0.5, 0.4) the average is 0.45 and the
decision is "suspicious", but the returned confidence is the constant 0.5,
not the average 0.45 as claimed. -/
theorem C4_counterexample :
    (fallback_decision (1/2) (2/5)).classification = "suspicious" ∧
    (fallback_decision (1/2) (2/5)).confidence ≠ ((1:ℚ)/2 + 2/5) / 2 := by
  rw [fallback_suspicious_eq (1/2) (2/5) (by norm_num) (by norm_num)]
  exact ⟨rfl, by norm_num⟩

/-- C10 (amended): for scores in [0,1] the fallback confidence is never below
0.5; it equals 0.5 exactly on the "suspicious" branch (average in [0.4, 0.6])
and is at least 0.6 (not strictly greater: the 4-decimal rounding can hit 0.6
exactly) on the "human" and "ai" branches. -/
theorem C10_fallback_confidence_bounds (m l : ℚ)
    (hm0 : 0 ≤ m) (hm1 : m ≤ 1) (hl0 : 0 ≤ l) (hl1 : l ≤ 1) :
    1/2 ≤ (fallback_decision m l).confidence ∧
    (4/10 ≤ (m + l) / 2 → (m + l) / 2 ≤ 6/10 →
      (fallback_decision m l).confidence = 1/2) ∧
    (6/10 < (m + l) / 2 → 6/10 ≤ (fallback_decision m l).confidence) ∧
    ((m + l) / 2 < 4/10 → 6/10 ≤ (fallback_decision m l).confidence) := by
  rcases lt_trichotomy ((m + l) / 2) (6/10) with hlt | heq | hgt
  · rcases lt_or_le ((m + l) / 2) (4/10) with hlo | hmid
    · rw [fallback_ai_eq m l hlo]
      have h6 : ((6000 : ℤ) : ℚ) / 10000 ≤ round4 (1 - (m + l) / 2) :=
        le_round4 _ 6000 (by push_cast; linarith)
      refine ⟨by push_cast at h6; linarith, fun h _ => absurd h (by linarith),
        fun h => absurd h (by linarith), fun _ => by push_cast at h6; linarith⟩
    · rw [fallback_suspicious_eq m l hmid (le_of_lt hlt)]
      exact ⟨le_refl _, fun _ _ => rfl, fun h => absurd h (by linarith),
        fun h => absurd h (by linarith)⟩
  · rw [fallback_suspicious_eq m l (by linarith) (le_of_eq heq)]
    exact ⟨le_refl _, fun _ _ => rfl, fun h => absurd h (by linarith),
      fun h => absurd h (by linarith)⟩
  · rw [fallback_human_eq m l hgt]
    have h6 : ((6000 : ℤ) : ℚ) / 10000 ≤ round4 ((m + l) / 2) :=
      le_round4 _ 6000 (by push_cast; linarith)
    refine ⟨by push_cast at h6; linarith, fun _ h => absurd h (by linarith),
      fun _ => by push_cast at h6; linarith, fun h => absurd h (by linarith)⟩

/-- C10 witness at scores (0.5, 0.5). -/
theorem C10_witness :
    1/2 ≤ (fallback_decision (1/2) (1/2)).confidence ∧
    (4/10 ≤ ((1:ℚ)/2 + 1/2) / 2 → ((1:ℚ)/2 + 1/2) / 2 ≤ 6/10 →
      (fallback_decision (1/2) (1/2)).confidence = 1/2) ∧
    (6/10 < ((1:ℚ)/2 + 1/2) / 2 → 6/10 ≤ (fallback_decision (1/2) (1/2)).confidence) ∧
    (((1:ℚ)/2 + 1/2) / 2 < 4/10 → 6/10 ≤ (fallback_decision (1/2) (1/2)).confidence) :=
  C10_fallback_confidence_bounds (1/2) (1/2) (by norm_num) (by norm_num)
    (by norm_num) (by norm_num)

/-- C10 counterexample: at scores (0.60004, 0.60004) the average 0.60004
exceeds 0.6, so the "human" branch is taken, yet the returned confidence
`round(0.60004, 4) = 0.6` is not strictly greater than 0.6. -/
theorem C10_counterexample :
    (fallback_decision (60004/100000) (60004/100000)).classification = "human" ∧
    ¬ (6/10 < (fallback_decision (60004/100000) (60004/100000)).confidence) := by
  rw [fallback_human_eq _ _ (by norm_num)]
  have : round4 (((60004:ℚ)/100000 + 60004/100000) / 2) = (6000 : ℤ) / 10000 :=
    round4_eq_low _ 6000 (by norm_num) (by norm_num)
  refine ⟨rfl, ?_⟩
  simp only [this]
  norm_num

/-- C2 (amended): with external arbitration configured, an exception during
the API call (transport error, timeout, non-2xx status) makes `decide`
return the fallback voting decision over the two local scores, and without
an API key the fallback is used as well; a malformed structured response,
however, is caught inside `_parse_response` and yields the fixed result
`("suspicious", 0.5, "Failed to parse response")`, not the fallback voting
decision.  In the embedding `jury_decide` is a total function, so no such
error propagates as an exception. -/
theorem C2_errors_use_fallback :
    (∀ m l : ℚ, jury_decide true ApiOutcome.failure m l = fallback_decision m l) ∧
    (∀ m l : ℚ, ∀ o : ApiOutcome, jury_decide false o m l = fallback_decision m l) ∧
    (∀ m l : ℚ, jury_decide true (ApiOutcome.success none) m l =
      ⟨"suspicious", 1/2, "Failed to parse response"⟩) := by
  exact ⟨fun m l => rfl, fun m l o => rfl, fun m l => rfl⟩

/-- C2 counterexample: with both local scores 0.9, a malformed response does
not produce the fallback voting decision (which would be
`("human", 0.9, ...)`) but the fixed parse-failure result. -/
theorem C2_counterexample :
    jury_decide true (ApiOutcome.success none) (9/10) (9/10) =
      ⟨"suspicious", 1/2, "Failed to parse response"⟩ ∧
    jury_decide true (ApiOutcome.success none) (9/10) (9/10) ≠
      fallback_decision (9/10) (9/10) := by
  refine ⟨rfl, ?_⟩
  rw [fallback_human_eq _ _ (by norm_num)]
  intro h
  have hcl : ("suspicious" : String) = "human" :=
    congrArg JuryResult.classification h
  exact absurd hcl (by decide)

theorem zone_one_iff (std : ℚ) :
    (classify_zone std).zone = 1 ↔ GLOBAL_MEAN_STD_AI < std := by
  unfold classify_zone
  split_ifs with h1 h2 h3 h4 <;>
    simp_all [UNCLASSIFIED_UPPER, UNCLASSIFIED_LOWER, GLOBAL_MEAN_STD_AI,
      GLOBAL_MEAN_STD_HUMAN, SIGMA_STD_AI, SIGMA_STD_HUMAN] <;>
    first
      | linarith
      | (intro h; linarith)
      | (intro h h'; linarith)

theorem zone_two_iff (std : ℚ) :
    (classify_zone std).zone = 2 ↔
      GLOBAL_MEAN_STD_AI - SIGMA_STD_AI / 2 < std ∧ std ≤ GLOBAL_MEAN_STD_AI := by
  unfold classify_zone
  split_ifs with h1 h2 h3 h4 <;>
    simp_all [UNCLASSIFIED_UPPER, UNCLASSIFIED_LOWER, GLOBAL_MEAN_STD_AI,
      GLOBAL_MEAN_STD_HUMAN, SIGMA_STD_AI, SIGMA_STD_HUMAN] <;>
    first
      | linarith
      | (intro h; linarith)
      | (intro h h'; linarith)
      | (constructor <;> linarith)
      | (constructor <;> intro h <;> linarith)

theorem zone_three_iff (std : ℚ) :
    (classify_zone std).zone = 3 ↔
      GLOBAL_MEAN_STD_HUMAN + SIGMA_STD_HUMAN / 2 ≤ std ∧
        std ≤ GLOBAL_MEAN_STD_AI - SIGMA_STD_AI / 2 := by
  unfold classify_zone
  split_ifs with h1 h2 h3 h4 <;>
    simp_all [UNCLASSIFIED_UPPER, UNCLASSIFIED_LOWER, GLOBAL_MEAN_STD_AI,
      GLOBAL_MEAN_STD_HUMAN, SIGMA_STD_AI, SIGMA_STD_HUMAN] <;>
    first
      | linarith
      | (intro h; linarith)
      | (intro h h'; linarith)
      | (constructor <;> linarith)
      | (constructor <;> intro h <;> linarith)

theorem zone_four_iff (std : ℚ) :
    (classify_zone std).zone = 4 ↔
      GLOBAL_MEAN_STD_HUMAN ≤ std ∧
        std < GLOBAL_MEAN_STD_HUMAN + SIGMA_STD_HUMAN / 2 := by
  unfold classify_zone
  split_ifs with h1 h2 h3 h4 <;>
    simp_all [UNCLASSIFIED_UPPER, UNCLASSIFIED_LOWER, GLOBAL_MEAN_STD_AI,
      GLOBAL_MEAN_STD_HUMAN, SIGMA_STD_AI, SIGMA_STD_HUMAN] <;>
    first
      | linarith
      | (intro h; linarith)
      | (intro h h'; linarith)
      | (constructor <;> linarith)
      | (constructor <;> intro h <;> linarith)

theorem zone_five_iff (std : ℚ) :
    (classify_zone std).zone = 5 ↔ std < GLOBAL_MEAN_STD_HUMAN := by
  unfold classify_zone
  split_ifs with h1 h2 h3 h4 <;>
    simp_all [UNCLASSIFIED_UPPER, UNCLASSIFIED_LOWER, GLOBAL_MEAN_STD_AI,
      GLOBAL_MEAN_STD_HUMAN, SIGMA_STD_AI, SIGMA_STD_HUMAN] <;>
    first
      | linarith
      | (intro h; linarith)
      | (intro h h'; linarith)

/-- C3: the zone classifier is a total deterministic function of the spread,
with zone 1 exactly on `spread > AI-mean`, zone 2 on
`AI-mean − σ_AI/2 < spread ≤ AI-mean`, zone 3 on
`human-mean + σ_human/2 ≤ spread ≤ AI-mean − σ_AI/2`, zone 4 on
`human-mean ≤ spread < human-mean + σ_human/2`, zone 5 on
`spread < human-mean`; a spread exactly equal to the human-mean constant is
assigned zone 4 with confidence 0.6753. -/
theorem C3_zone_partition :
    (∀ std : ℚ,
      ((classify_zone std).zone = 1 ↔ GLOBAL_MEAN_STD_AI < std) ∧
      ((classify_zone std).zone = 2 ↔
        GLOBAL_MEAN_STD_AI - SIGMA_STD_AI / 2 < std ∧ std ≤ GLOBAL_MEAN_STD_AI) ∧
      ((classify_zone std).zone = 3 ↔
        GLOBAL_MEAN_STD_HUMAN + SIGMA_STD_HUMAN / 2 ≤ std ∧
          std ≤ GLOBAL_MEAN_STD_AI - SIGMA_STD_AI / 2) ∧
      ((classify_zone std).zone = 4 ↔
        GLOBAL_MEAN_STD_HUMAN ≤ std ∧
          std < GLOBAL_MEAN_STD_HUMAN + SIGMA_STD_HUMAN / 2) ∧
      ((classify_zone std).zone = 5 ↔ std < GLOBAL_MEAN_STD_HUMAN)) ∧
    classify_zone GLOBAL_MEAN_STD_HUMAN =
      ⟨4, "likely-human", 6753/10000, 75/100⟩ := by
  refine ⟨fun std => ⟨zone_one_iff std, zone_two_iff std, zone_three_iff std,
    zone_four_iff std, zone_five_iff std⟩, ?_⟩
  unfold classify_zone
  rw [if_neg, if_neg, if_neg, if_pos]
  · have h1 : round4 ZONE_4_ACCURACY = ((6753 : ℤ) : ℚ) / 10000 :=
      round4_eq_low _ 6753 (by norm_num [ZONE_4_ACCURACY]) (by norm_num [ZONE_4_ACCURACY])
    have h2 : round4 ((75 : ℚ)/100) = ((7500 : ℤ) : ℚ) / 10000 :=
      round4_eq_low _ 7500 (by norm_num) (by norm_num)
    rw [h1, h2]
    norm_num
  · constructor
    · exact le_refl _
    · norm_num [UNCLASSIFIED_LOWER, GLOBAL_MEAN_STD_HUMAN, SIGMA_STD_HUMAN]
  · norm_num [UNCLASSIFIED_LOWER, UNCLASSIFIED_UPPER, GLOBAL_MEAN_STD_HUMAN,
      GLOBAL_MEAN_STD_AI, SIGMA_STD_AI, SIGMA_STD_HUMAN]
  · norm_num [UNCLASSIFIED_UPPER, GLOBAL_MEAN_STD_HUMAN, GLOBAL_MEAN_STD_AI,
      SIGMA_STD_AI]
  · norm_num [GLOBAL_MEAN_STD_HUMAN, GLOBAL_MEAN_STD_AI]

/-! ## Sentence-aware chunker (`backend/app/detectors/semantic_embedding.py`,
`sentence_aware_chunk_encode`)

The chunk-building loop is modelled with the chunks kept as lists of
sentences; the source then `' '.join`s each chunk and encodes it, which
does not affect which sentences land in which chunk.  `num_chunks = 0`
would raise `ZeroDivisionError` in Python, so the claims are settled for
positive targets. -/

/-- The `for` loop of `sentence_aware_chunk_encode`: `rest` is the part of
the sentence list still to be consumed (`i == len(sentences) - 1` is
`rest = []`), `chunks` the closed chunks, `current`/`count` the
accumulating chunk and `sentence_count`. -/
def chunk_loop (spc : ℚ) : List String → List (List String) → List String → ℕ →
    List (List String)
  | [], chunks, _current, _count => chunks
  | s :: rest, chunks, current, count =>
    if ((chunks.length : ℚ) + 1) * spc ≤ (count : ℚ) + 1 ∨ rest = [] then
      chunk_loop spc rest (chunks ++ [current ++ [s]]) [] 0
    else
      chunk_loop spc rest chunks (current ++ [s]) (count + 1)

/-- `sentence_aware_chunk_encode` after sentence splitting and before
encoding: fewer sentences than the target means one chunk per sentence
(no padding), otherwise the loop above with
`sentences_per_chunk = len(sentences) / num_chunks`. -/
def sentence_aware_chunk (sentences : List String) (num_chunks : ℕ) :
    List (List String) :=
  if sentences.length < num_chunks then sentences.map (fun s => [s])
  else chunk_loop ((sentences.length : ℚ) / (num_chunks : ℚ)) sentences [] [] 0

theorem chunk_loop_join (spc : ℚ) :
    ∀ (rest : List String) (chunks : List (List String)) (current : List String)
      (count : ℕ), rest ≠ [] →
      (chunk_loop spc rest chunks current count).join =
        chunks.join ++ current ++ rest := by
  intro rest
  induction rest with
  | nil => intro _ _ _ h; exact absurd rfl h
  | cons s rest ih =>
    intro chunks current count _
    by_cases hclose : ((chunks.length : ℚ) + 1) * spc ≤ (count : ℚ) + 1 ∨ rest = []
    · rw [chunk_loop, if_pos hclose]
      by_cases hrest : rest = []
      · subst hrest
        simp [chunk_loop]
      · rw [ih _ _ _ hrest]
        simp
    · rw [chunk_loop, if_neg hclose]
      have hrest : rest ≠ [] := fun h => hclose (Or.inr h)
      rw [ih _ _ _ hrest]
      simp

theorem join_map_singleton (l : List String) :
    (l.map (fun s => [s])).join = l := by
  induction l with
  | nil => rfl
  | cons s t ih => simp [ih]

/-- C6: the chunker never splits a sentence — every chunk is a list of whole
sentences, and the concatenation of all chunks, in order, is exactly the
original sentence sequence (for any positive chunk target; a target of 0
raises `ZeroDivisionError` in the source before producing chunks). -/
theorem C6_chunks_concat_to_original (sentences : List String) (num_chunks : ℕ)
    (h : 0 < num_chunks) :
    (sentence_aware_chunk sentences num_chunks).join = sentences := by
  unfold sentence_aware_chunk
  split_ifs with hlt
  · exact join_map_singleton sentences
  · have hne : sentences ≠ [] := by
      intro hnil
      rw [hnil] at hlt
      simp at hlt
      omega
    rw [chunk_loop_join _ sentences [] [] 0 hne]
    simp

/-- C6 witness at a concrete two-sentence document with target 50. -/
theorem C6_witness :
    0 < 50 ∧
    (sentence_aware_chunk ["First sentence.", "Second sentence."] 50).join =
      ["First sentence.", "Second sentence."] :=
  ⟨by decide, C6_chunks_concat_to_original _ 50 (by decide)⟩

/-- C5: when there are fewer sentences than the chunk target, the chunker
emits exactly one chunk per sentence and adds no synthetic padding, so the
number of chunks equals the number of sentences. -/
theorem C5_fewer_sentences_one_chunk_each (sentences : List String)
    (num_chunks : ℕ) (h : sentences.length < num_chunks) :
    sentence_aware_chunk sentences num_chunks = sentences.map (fun s => [s]) ∧
    (sentence_aware_chunk sentences num_chunks).length = sentences.length := by
  unfold sentence_aware_chunk
  rw [if_pos h]
  exact ⟨rfl, List.length_map _ _⟩

/-- C5 witness: a 3-sentence document with target 50 yields exactly 3 chunks,
one per sentence. -/
theorem C5_witness :
    (["One one one.", "Two two two.", "Three three three."].length < 50) ∧
    (sentence_aware_chunk
        ["One one one.", "Two two two.", "Three three three."] 50 =
      [["One one one."], ["Two two two."], ["Three three three."]] ∧
    (sentence_aware_chunk
        ["One one one.", "Two two two.", "Three three three."] 50).length = 3) :=
  ⟨by decide,
    C5_fewer_sentences_one_chunk_each
      ["One one one.", "Two two two.", "Three three three."] 50 (by decide)⟩

theorem chunk_loop_sizes (spc : ℚ) (hspc : 0 < spc) :
    ∀ (rest : List String) (chunks : List (List String)) (current : List String)
      (count : ℕ), rest ≠ [] →
      current.length = count →
      (count : ℚ) < ((chunks.length : ℚ) + 1) * spc →
      (∀ j, j < chunks.length →
        ((chunks.getD j []).length : ℤ) = ⌈((j : ℚ) + 1) * spc⌉) →
      ∀ k, k + 1 < (chunk_loop spc rest chunks current count).length →
        (((chunk_loop spc rest chunks current count).getD k []).length : ℤ) =
          ⌈((k : ℚ) + 1) * spc⌉ := by
  intro rest
  induction rest with
  | nil => intro _ _ _ h; exact absurd rfl h
  | cons s rest ih =>
    intro chunks current count _ hcur hlt hinv k hk
    by_cases hrest : rest = []
    · subst hrest
      rw [chunk_loop, if_pos (Or.inr rfl)] at hk ⊢
      rw [chunk_loop] at hk ⊢
      have hk' : k < chunks.length := by
        simp only [List.length_append, List.length_singleton] at hk
        omega
      rw [List.getD_append _ _ _ _ hk']
      exact hinv k hk'
    · by_cases hthr : ((chunks.length : ℚ) + 1) * spc ≤ (count : ℚ) + 1
      · rw [chunk_loop, if_pos (Or.inl hthr)] at hk ⊢
        have hnewinv : ∀ j, j < (chunks ++ [current ++ [s]]).length →
            (((chunks ++ [current ++ [s]]).getD j []).length : ℤ) =
              ⌈((j : ℚ) + 1) * spc⌉ := by
          intro j hj
          simp only [List.length_append, List.length_singleton] at hj
          rcases Nat.lt_or_ge j chunks.length with hj' | hj'
          · rw [List.getD_append _ _ _ _ hj']
            exact hinv j hj'
          · have hje : j = chunks.length := by omega
            subst hje
            rw [List.getD_append_right _ _ _ _ hj']
            simp only [Nat.sub_self, List.getD_cons_zero, List.length_append,
              List.length_singleton]
            rw [hcur]
            have : (⌈((chunks.length : ℚ) + 1) * spc⌉ : ℤ) = (count : ℤ) + 1 := by
              rw [Int.ceil_eq_iff]
              constructor
              · push_cast
                linarith
              · push_cast
                linarith
            omega
        have h0 : (0 : ℚ) < (((chunks ++ [current ++ [s]]).length : ℚ) + 1) * spc := by
          positivity
        exact ih (chunks ++ [current ++ [s]]) [] 0 hrest rfl h0 hnewinv k hk
      · rw [chunk_loop, if_neg (by push_neg; exact ⟨by linarith, hrest⟩)] at hk ⊢
        have hlt' : ((count + 1 : ℕ) : ℚ) < ((chunks.length : ℚ) + 1) * spc := by
          push_cast
          push_neg at hthr
          linarith
        exact ih chunks (current ++ [s]) (count + 1) hrest
          (by simp [hcur]) hlt' hinv k hk

/-- C1 (amended): for a document with at least as many sentences as the
target, a chunk closes when the number of sentences accumulated *since the
last chunk boundary* (the loop resets `sentence_count` to 0 at each close)
reaches `(k+1) * (total_sentences / target_chunk_count)`, or at the final
sentence; consequently every chunk except possibly the last contains exactly
`⌈(k+1) * total/target⌉` sentences, chunk sizes grow with `k`, and the number
of chunks produced can be strictly smaller than the target. -/
theorem C1_chunk_close_rule (sentences : List String) (num_chunks : ℕ)
    (h0 : 0 < num_chunks) (h1 : num_chunks ≤ sentences.length) :
    ∀ k, k + 1 < (sentence_aware_chunk sentences num_chunks).length →
      (((sentence_aware_chunk sentences num_chunks).getD k []).length : ℤ) =
        ⌈((k : ℚ) + 1) * ((sentences.length : ℚ) / (num_chunks : ℚ))⌉ := by
  unfold sentence_aware_chunk
  rw [if_neg (by omega)]
  have hlen : 0 < sentences.length := lt_of_lt_of_le h0 h1
  have hspc : 0 < (sentences.length : ℚ) / (num_chunks : ℚ) := by
    apply div_pos
    · exact_mod_cast hlen
    · exact_mod_cast h0
  have hne : sentences ≠ [] := by
    intro hnil
    rw [hnil] at hlen
    simp at hlen
  exact chunk_loop_sizes _ hspc sentences [] [] 0 hne rfl (by simpa using hspc)
    (by intro j hj; simp at hj)

/-- C1 witness: a 10-sentence document with target 5 (spc = 2): the
non-last chunks have sizes ⌈2⌉, ⌈4⌉, … . -/
theorem C1_witness :
    ((0 < 5 ∧ 5 ≤ (["a","b","c","d","e","f","g","h","i","j"] : List String).length) ∧
    ∀ k, k + 1 < (sentence_aware_chunk
        ["a","b","c","d","e","f","g","h","i","j"] 5).length →
      (((sentence_aware_chunk ["a","b","c","d","e","f","g","h","i","j"] 5).getD
          k []).length : ℤ) =
        ⌈((k : ℚ) + 1) *
          (((["a","b","c","d","e","f","g","h","i","j"] : List String).length : ℚ) /
            (5 : ℕ))⌉) :=
  ⟨⟨by decide, by decide⟩,
    C1_chunk_close_rule ["a","b","c","d","e","f","g","h","i","j"] 5
      (by decide) (by decide)⟩

/-- C1 counterexample: a 9-sentence document with target 3 produces only 2
chunks (the loop compares a per-chunk counter against a cumulative
threshold), so the number of chunks does not equal the target. -/
theorem C1_counterexample :
    3 ≤ (["a","b","c","d","e","f","g","h","i"] : List String).length ∧
    (sentence_aware_chunk ["a","b","c","d","e","f","g","h","i"] 3).length = 2 ∧
    (sentence_aware_chunk ["a","b","c","d","e","f","g","h","i"] 3).length ≠ 3 := by
  have hval : sentence_aware_chunk ["a","b","c","d","e","f","g","h","i"] 3 =
      [["a","b","c"], ["d","e","f","g","h","i"]] := by
    norm_num [sentence_aware_chunk, chunk_loop]
    simp
  rw [hval]
  exact ⟨by decide, rfl, by decide⟩

/-! ## Mathematical (style-feature) detector
(`backend/app/detectors/mathematical.py`)

Sentences are `List Char`.  `re.findall(r'\b\w+\b', text.lower())` is the
list of maximal runs of word characters of the lowercased text (the ASCII
fragment of `\w` is modelled).  The presentation rounding `round(·, 4)` of
the returned dict is modelled by `round4`; `math_score` is the `score`
variable of `MathematicalDetector.detect` before that rounding. -/

/-- Python `\s` (ASCII fragment). -/
def isPySpace (c : Char) : Bool :=
  c = ' ' ∨ c = '\t' ∨ c = '\n' ∨ c = '\r' ∨ c = '\x0b' ∨ c = '\x0c'

/-- Python `str.strip()`. -/
def pyStrip (s : List Char) : List Char :=
  ((s.dropWhile isPySpace).reverse.dropWhile isPySpace).reverse

/-- Python `\w` (ASCII fragment): letters, digits, underscore. -/
def isWordChar (c : Char) : Bool := c.isAlphanum ∨ c = '_'

/-- Maximal runs of word characters (`re.findall(r'\b\w+\b', ·)`). -/
def word_runs_aux : List Char → List Char → List (List Char)
  | acc, [] => if acc = [] then [] else [acc.reverse]
  | acc, c :: cs =>
    if isWordChar c then word_runs_aux (c :: acc) cs
    else if acc = [] then word_runs_aux [] cs
    else acc.reverse :: word_runs_aux [] cs

/-- `MathematicalDetector._tokenize_words`: word runs of the lowercased
text, then the (vacuous) `len(w) > 0` filter of the source. -/
def tokenize_words (text : List Char) : List (List Char) :=
  (word_runs_aux [] (text.map Char.toLower)).filter (fun w => 0 < w.length)

/-- `MathematicalDetector._calculate_burstiness`. -/
def calculate_burstiness (sentence : List Char) : ℚ :=
  let words := tokenize_words sentence
  if words.length < 2 then 1/2
  else
    let word_lengths : List ℚ := words.map (fun w => (w.length : ℚ))
    let mean_length := word_lengths.sum / (word_lengths.length : ℚ)
    let variance :=
      (word_lengths.map (fun l => (l - mean_length) ^ 2)).sum /
        (word_lengths.length : ℚ)
    min (variance / 20) 1

/-- `MathematicalDetector._calculate_vocabulary_richness` (`set(words)` is
the deduplicated word list). -/
def calculate_vocabulary_richness (sentence : List Char) : ℚ :=
  let words := tokenize_words sentence
  if words.length = 0 then 1/2
  else ((words.dedup.length : ℚ)) / (words.length : ℚ)

/-- `MathematicalDetector._load_common_words`: the top-100 list; the rank of
a word is its index + 1. -/
def common_words : List String :=
  ["the", "be", "to", "of", "and", "a", "in", "that", "have", "i",
   "it", "for", "not", "on", "with", "he", "as", "you", "do", "at",
   "this", "but", "his", "by", "from", "they", "we", "say", "her", "she",
   "or", "an", "will", "my", "one", "all", "would", "there", "their", "what",
   "so", "up", "out", "if", "about", "who", "get", "which", "go", "me",
   "when", "make", "can", "like", "time", "no", "just", "him", "know", "take",
   "people", "into", "year", "your", "good", "some", "could", "them", "see", "other",
   "than", "then", "now", "look", "only", "come", "its", "over", "think", "also",
   "back", "after", "use", "two", "how", "our", "work", "first", "well", "way",
   "even", "new", "want", "because", "any", "these", "give", "day", "most", "us"]

/-- Per-word score inside `_calculate_word_frequency`:
`1 - rank/100` for a common word, `1.0` otherwise. -/
def word_score (w : List Char) : ℚ :=
  let word_lower : String := ⟨w.map Char.toLower⟩
  if word_lower ∈ common_words then
    1 - ((common_words.indexOf word_lower : ℚ) + 1) / 100
  else 1

/-- `MathematicalDetector._calculate_word_frequency`. -/
def calculate_word_frequency (sentence : List Char) : ℚ :=
  let words := tokenize_words sentence
  if words.length = 0 then 1/2
  else
    let scores := words.map word_score
    let avg_score := if scores.length = 0 then 1/2
      else scores.sum / (scores.length : ℚ)
    1 - |avg_score - 1/2| * 2

/-- The punctuation class `[.,!?;:\-—…]`. -/
def punct_chars : List Char := ['.', ',', '!', '?', ';', ':', '-', '—', '…']

/-- `MathematicalDetector._calculate_punctuation_score`. -/
def calculate_punctuation_score (sentence : List Char) : ℚ :=
  let punctuation_marks := sentence.filter (fun c => c ∈ punct_chars)
  let total_chars := sentence.length
  if total_chars = 0 then 1/2
  else
    let punct_density := (punctuation_marks.length : ℚ) / (total_chars : ℚ)
    let unique_puncts := punctuation_marks.dedup.length
    let density_score := 1 - min (|punct_density - 10/100| / (10/100)) 1
    let variety_score := min ((unique_puncts : ℚ) / 3) 1
    density_score * (7/10) + variety_score * (3/10)

/-- Word boundary to the left: start of string or a non-word character. -/
def boundary_free : Option Char → Bool
  | none => true
  | some c => ¬ isWordChar c

/-- Word boundary to the right: end of string or a non-word character. -/
def boundary_after : List Char → Bool
  | [] => true
  | c :: _ => ¬ isWordChar c

/-- Occurrences of `w` as a whole word (`\bw\b`) in a text, scanning with
the previous character as boundary context. -/
def count_word (w : List Char) : Option Char → List Char → ℕ
  | _, [] => 0
  | prev, c :: cs =>
    (if boundary_free prev ∧ w.isPrefixOf (c :: cs) ∧
        boundary_after ((c :: cs).drop w.length)
      then 1 else 0) + count_word w (some c) cs

/-- `len(re.findall(r'[,;]|\band\b|\bbut\b|\bor\b|\bif\b|\bwhen\b', ·))` on
the lowercased sentence: the alternatives cannot overlap, so the match
count is the sum of the per-alternative counts. -/
def clause_indicators (lowered : List Char) : ℕ :=
  (lowered.filter (fun c => c = ',' ∨ c = ';')).length
    + count_word "and".data none lowered
    + count_word "but".data none lowered
    + count_word "or".data none lowered
    + count_word "if".data none lowered
    + count_word "when".data none lowered

/-- `MathematicalDetector._calculate_complexity`. -/
def calculate_complexity (sentence : List Char) : ℚ :=
  let words := tokenize_words sentence
  if words.length = 0 then 1/2
  else
    let words_per_sentence : ℚ := (words.length : ℚ)
    let ci := clause_indicators (sentence.map Char.toLower)
    let length_score := 1 - min (|words_per_sentence - 20| / 20) 1
    let clause_density := (ci : ℚ) / max words_per_sentence 1
    let clause_score := 1 - min (|clause_density - 15/100| / (15/100)) 1
    length_score * (6/10) + clause_score * (4/10)

/-- `MathematicalDetector._calculate_entropy`: Shannon entropy of the word
length distribution (`Counter.values()` iterates the distinct lengths). -/
noncomputable def calculate_entropy (sentence : List Char) : ℝ :=
  let words := tokenize_words sentence
  if words.length < 2 then 1/2
  else
    let word_lengths := words.map List.length
    let total : ℚ := (words.length : ℚ)
    let entropy : ℝ :=
      -(((word_lengths.dedup).map (fun l =>
          let probability : ℚ := ((word_lengths.count l : ℚ)) / total
          if (0 : ℚ) < probability
          then (probability : ℝ) * Real.logb 2 (probability : ℝ) else 0)).sum)
    min (entropy / 3.5) 1

/-- The `features` dict of `MathematicalDetector.detect`. -/
structure MathFeatures where
  burstiness : ℚ
  vocabulary_richness : ℚ
  word_frequency : ℚ
  punctuation : ℚ
  complexity : ℚ
  entropy : ℝ

/-- The six feature values `detect` computes (degenerate input: all 0.5). -/
noncomputable def detect_features (sentence : List Char) : MathFeatures :=
  if pyStrip sentence = [] then ⟨1/2, 1/2, 1/2, 1/2, 1/2, 1/2⟩
  else
    ⟨calculate_burstiness sentence, calculate_vocabulary_richness sentence,
     calculate_word_frequency sentence, calculate_punctuation_score sentence,
     calculate_complexity sentence, calculate_entropy sentence⟩

/-- The `features` dict as returned (each sub-score through `round(·, 4)`;
the degenerate branch returns the literal 0.5 values). -/
noncomputable def detect_features_rounded (sentence : List Char) : MathFeatures :=
  if pyStrip sentence = [] then ⟨1/2, 1/2, 1/2, 1/2, 1/2, 1/2⟩
  else
    ⟨round4 (calculate_burstiness sentence),
     round4 (calculate_vocabulary_richness sentence),
     round4 (calculate_word_frequency sentence),
     round4 (calculate_punctuation_score sentence),
     round4 (calculate_complexity sentence),
     round4 (calculate_entropy sentence)⟩

/-- `raw_score`: the fixed-weight aggregation of `detect`. -/
noncomputable def raw_score (sentence : List Char) : ℝ :=
  (calculate_burstiness sentence : ℝ) * (10/100)
    + (calculate_vocabulary_richness sentence : ℝ) * (25/100)
    + (calculate_word_frequency sentence : ℝ) * (20/100)
    + (calculate_punctuation_score sentence : ℝ) * (20/100)
    + (calculate_complexity sentence : ℝ) * (10/100)
    + calculate_entropy sentence * (15/100)

/-- The `score` variable of `detect` (before the output `round(·, 4)`):
the weighted sum minus the −0.03 calibration offset, floored at 0; the
degenerate branch returns 0.5. -/
noncomputable def math_score (sentence : List Char) : ℝ :=
  if pyStrip sentence = [] then 1/2
  else max (raw_score sentence - 3/100) 0

/-! ### Bounds for the style features -/

theorem list_sum_le_length (l : List ℚ) (h : ∀ x ∈ l, x ≤ 1) :
    l.sum ≤ (l.length : ℚ) := by
  induction l with
  | nil => simp
  | cons a t ih =>
    simp only [List.sum_cons, List.length_cons]
    push_cast
    have ha : a ≤ 1 := h a (List.mem_cons_self a t)
    have ht : t.sum ≤ (t.length : ℚ) := ih fun x hx => h x (List.mem_cons_of_mem a hx)
    linarith

theorem round4_mem_unit {α : Type} [LinearOrderedField α] [FloorRing α]
    (x : α) (h0 : 0 ≤ x) (h1 : x ≤ 1) : 0 ≤ round4 x ∧ round4 x ≤ 1 := by
  constructor
  · have := le_round4 x 0 (by simpa using h0)
    simpa using this
  · have := round4_le x 10000 (by push_cast; linarith)
    calc round4 x ≤ ((10000 : ℤ) : α) / 10000 := this
      _ = 1 := by norm_num

theorem burstiness_mem_unit (s : List Char) :
    0 ≤ calculate_burstiness s ∧ calculate_burstiness s ≤ 1 := by
  simp only [calculate_burstiness]
  split_ifs with h
  · norm_num
  · set words := tokenize_words s
    set lens : List ℚ := words.map (fun w => (w.length : ℚ)) with hlens
    set mean := lens.sum / (lens.length : ℚ)
    have hvar : 0 ≤ (lens.map (fun l => (l - mean) ^ 2)).sum / (lens.length : ℚ) := by
      apply div_nonneg
      · apply List.sum_nonneg
        intro x hx
        obtain ⟨l, _, rfl⟩ := List.mem_map.mp hx
        positivity
      · positivity
    exact ⟨le_min (by positivity) (by norm_num), min_le_right _ _⟩

theorem vocabulary_richness_mem_unit (s : List Char) :
    0 ≤ calculate_vocabulary_richness s ∧ calculate_vocabulary_richness s ≤ 1 := by
  simp only [calculate_vocabulary_richness]
  split_ifs with h
  · norm_num
  · have hlen : 0 < (tokenize_words s).length := Nat.pos_of_ne_zero h
    have hde : (tokenize_words s).dedup.length ≤ (tokenize_words s).length :=
      List.Sublist.length_le (List.dedup_sublist _)
    constructor
    · positivity
    · rw [div_le_one (by exact_mod_cast hlen)]
      exact_mod_cast hde

theorem word_score_mem_unit (w : List Char) :
    0 ≤ word_score w ∧ word_score w ≤ 1 := by
  simp only [word_score]
  split_ifs with h
  · have hidx : common_words.indexOf ⟨w.map Char.toLower⟩ < common_words.length :=
      List.indexOf_lt_length.mpr h
    have hlen : common_words.length = 100 := by rfl
    rw [hlen] at hidx
    have hidx' : ((common_words.indexOf ⟨w.map Char.toLower⟩ : ℚ)) ≤ 99 := by
      exact_mod_cast Nat.le_of_lt_succ hidx
    have hidx0 : (0 : ℚ) ≤ (common_words.indexOf ⟨w.map Char.toLower⟩ : ℚ) := by
      positivity
    exact ⟨by linarith, by linarith⟩
  · norm_num

theorem word_frequency_mem_unit (s : List Char) :
    0 ≤ calculate_word_frequency s ∧ calculate_word_frequency s ≤ 1 := by
  simp only [calculate_word_frequency]
  split_ifs with h h0
  · norm_num
  · norm_num
  · set scores := (tokenize_words s).map word_score with hscores
    have hpos : 0 < (scores.length : ℚ) := by
      exact_mod_cast Nat.pos_of_ne_zero h0
    have hsum0 : 0 ≤ scores.sum := by
      apply List.sum_nonneg
      intro x hx
      obtain ⟨wrd, _, rfl⟩ := List.mem_map.mp hx
      exact (word_score_mem_unit wrd).1
    have hsum1 : scores.sum ≤ (scores.length : ℚ) := by
      apply list_sum_le_length
      intro x hx
      obtain ⟨wrd, _, rfl⟩ := List.mem_map.mp hx
      exact (word_score_mem_unit wrd).2
    have havg0 : 0 ≤ scores.sum / (scores.length : ℚ) := div_nonneg hsum0 (le_of_lt hpos)
    have havg1 : scores.sum / (scores.length : ℚ) ≤ 1 := by
      rw [div_le_one hpos]
      exact hsum1
    have habs : |scores.sum / (scores.length : ℚ) - 1/2| ≤ 1/2 :=
      abs_le.mpr ⟨by linarith, by linarith⟩
    have habs0 : 0 ≤ |scores.sum / (scores.length : ℚ) - 1/2| := abs_nonneg _
    constructor <;> linarith

theorem punctuation_score_mem_unit (s : List Char) :
    0 ≤ calculate_punctuation_score s ∧ calculate_punctuation_score s ≤ 1 := by
  simp only [calculate_punctuation_score]
  split_ifs with h
  · norm_num
  · set d := (((s.filter (fun c => c ∈ punct_chars)).length : ℚ)) / ((s.length : ℚ))
    have hds0 : 0 ≤ min (|d - 10/100| / (10/100)) 1 := le_min (by positivity) (by norm_num)
    have hds1 : min (|d - 10/100| / (10/100)) 1 ≤ 1 := min_le_right _ _
    set u := (((s.filter (fun c => c ∈ punct_chars)).dedup.length : ℚ))
    have hv0 : 0 ≤ min (u / 3) 1 := le_min (by positivity) (by norm_num)
    have hv1 : min (u / 3) 1 ≤ 1 := min_le_right _ _
    constructor <;> [nlinarith; nlinarith]

theorem complexity_mem_unit (s : List Char) :
    0 ≤ calculate_complexity s ∧ calculate_complexity s ≤ 1 := by
  simp only [calculate_complexity]
  split_ifs with h
  · norm_num
  · set wps : ℚ := ((tokenize_words s).length : ℚ)
    have hls0 : 0 ≤ min (|wps - 20| / 20) 1 := le_min (by positivity) (by norm_num)
    have hls1 : min (|wps - 20| / 20) 1 ≤ 1 := min_le_right _ _
    set cd := ((clause_indicators (s.map Char.toLower) : ℚ)) / max wps 1
    have hcs0 : 0 ≤ min (|cd - 15/100| / (15/100)) 1 := le_min (by positivity) (by norm_num)
    have hcs1 : min (|cd - 15/100| / (15/100)) 1 ≤ 1 := min_le_right _ _
    constructor <;> nlinarith

theorem entropy_of_le_one_token (s : List Char)
    (h : (tokenize_words s).length ≤ 1) : calculate_entropy s = 1/2 := by
  simp only [calculate_entropy]
  rw [if_pos (by omega)]

/-- C7: for every sentence that is non-empty after stripping, the final
scalar (the `score` variable, before the presentation `round(·, 4)`) equals
`max(0.10·burstiness + 0.25·richness + 0.20·frequency + 0.20·punctuation +
0.10·complexity + 0.15·entropy − 0.03, 0)`; for the degenerate
(empty-after-strip) sentence the score and every sub-score equal 0.5. -/
theorem C7_weighted_aggregation (s : List Char) :
    (pyStrip s ≠ [] →
      math_score s =
        max ((calculate_burstiness s : ℝ) * (10/100)
          + (calculate_vocabulary_richness s : ℝ) * (25/100)
          + (calculate_word_frequency s : ℝ) * (20/100)
          + (calculate_punctuation_score s : ℝ) * (20/100)
          + (calculate_complexity s : ℝ) * (10/100)
          + calculate_entropy s * (15/100) - 3/100) 0) ∧
    (pyStrip s = [] →
      math_score s = 1/2 ∧
      detect_features s = ⟨1/2, 1/2, 1/2, 1/2, 1/2, 1/2⟩) := by
  constructor
  · intro h
    rw [math_score, if_neg h, raw_score]
  · intro h
    rw [math_score, if_pos h, detect_features, if_pos h]
    exact ⟨rfl, rfl⟩

/-- C8: for every sentence with at most one word token, each of the six
returned feature values (after the output rounding) is a defined rational
or real number in [0, 1]; in the embedding the features are total
functions, so no NaN or exception can occur. -/
theorem C8_features_defined_in_unit (s : List Char)
    (h : (tokenize_words s).length ≤ 1) :
    (0 ≤ (detect_features_rounded s).burstiness ∧
      (detect_features_rounded s).burstiness ≤ 1) ∧
    (0 ≤ (detect_features_rounded s).vocabulary_richness ∧
      (detect_features_rounded s).vocabulary_richness ≤ 1) ∧
    (0 ≤ (detect_features_rounded s).word_frequency ∧
      (detect_features_rounded s).word_frequency ≤ 1) ∧
    (0 ≤ (detect_features_rounded s).punctuation ∧
      (detect_features_rounded s).punctuation ≤ 1) ∧
    (0 ≤ (detect_features_rounded s).complexity ∧
      (detect_features_rounded s).complexity ≤ 1) ∧
    (0 ≤ (detect_features_rounded s).entropy ∧
      (detect_features_rounded s).entropy ≤ 1) := by
  unfold detect_features_rounded
  split_ifs with hdeg
  · norm_num
  · refine ⟨round4_mem_unit _ (burstiness_mem_unit s).1 (burstiness_mem_unit s).2,
      round4_mem_unit _ (vocabulary_richness_mem_unit s).1
        (vocabulary_richness_mem_unit s).2,
      round4_mem_unit _ (word_frequency_mem_unit s).1 (word_frequency_mem_unit s).2,
      round4_mem_unit _ (punctuation_score_mem_unit s).1
        (punctuation_score_mem_unit s).2,
      round4_mem_unit _ (complexity_mem_unit s).1 (complexity_mem_unit s).2,
      ?_⟩
    rw [entropy_of_le_one_token s h]
    exact round4_mem_unit _ (by norm_num) (by norm_num)

/-- C8 witness: the one-token sentence "Hi". -/
theorem C8_witness :
    ((tokenize_words "Hi".data).length ≤ 1) ∧
    ((0 ≤ (detect_features_rounded "Hi".data).burstiness ∧
      (detect_features_rounded "Hi".data).burstiness ≤ 1) ∧
    (0 ≤ (detect_features_rounded "Hi".data).vocabulary_richness ∧
      (detect_features_rounded "Hi".data).vocabulary_richness ≤ 1) ∧
    (0 ≤ (detect_features_rounded "Hi".data).word_frequency ∧
      (detect_features_rounded "Hi".data).word_frequency ≤ 1) ∧
    (0 ≤ (detect_features_rounded "Hi".data).punctuation ∧
      (detect_features_rounded "Hi".data).punctuation ≤ 1) ∧
    (0 ≤ (detect_features_rounded "Hi".data).complexity ∧
      (detect_features_rounded "Hi".data).complexity ≤ 1) ∧
    (0 ≤ (detect_features_rounded "Hi".data).entropy ∧
      (detect_features_rounded "Hi".data).entropy ≤ 1)) :=
  ⟨by decide, C8_features_defined_in_unit "Hi".data (by decide)⟩

/-! ## Sentence segmenter (`backend/app/services/text_processor.py`)

`TextProcessor.split_into_sentences` normalises whitespace, protects
abbreviation periods with the `<ABR>` placeholder, splits on
`(?<=[.!?])\s+(?=[A-Z])|(?<=[.!?])$`, restores the placeholder, strips and
filters.  The regex scanners are embedded as structural left-to-right
scanners carrying the previous character (for the look-behind/`\b`) and a
skip counter (for the consumed match).  Python iterates the abbreviation
*set* in an unspecified order; the embedding fixes the source-literal
order (the per-abbreviation substitutions touch pairwise disjoint regions,
so the order does not affect the result). -/

/-- `[.!?]` (the sentence-terminator class of the split regex). -/
def is_term (c : Char) : Bool := c = '.' || c = '!' || c = '?'

/-- `[A-Z]` (the look-ahead class of the split regex). -/
def isUpperAZ (c : Char) : Bool := 'A' ≤ c && c ≤ 'Z'

def is_term_opt : Option Char → Bool
  | none => false
  | some c => is_term c

/-- One step of `re.sub(r'\s+', ' ', ·)`: each whitespace run becomes a
single `' '`. -/
def squeeze_aux : Bool → List Char → List Char
  | _, [] => []
  | prevSp, c :: cs =>
    if isPySpace c then
      if prevSp then squeeze_aux true cs else ' ' :: squeeze_aux true cs
    else c :: squeeze_aux false cs

/-- `re.sub(r'\s+', ' ', text).strip()`. -/
def normalize_ws (s : List Char) : List Char := pyStrip (squeeze_aux false s)

/-- `pattern.sub(abbr + '<ABR>', ·)` for `pattern = \babbr\.` with
`re.IGNORECASE`: scan left to right; at a word boundary where the
lowercased text starts with `abbr` followed by `'.'`, emit the (lowercase)
abbreviation plus the placeholder and skip the matched characters. -/
def replace_abbr_go (abbr : List Char) : ℕ → Option Char → List Char → List Char
  | _, _, [] => []
  | skip+1, _, c :: cs => replace_abbr_go abbr skip (some c) cs
  | 0, prev, c :: cs =>
    if boundary_free prev &&
        decide (((c :: cs).take (abbr.length + 1)).map Char.toLower = abbr ++ ['.']) then
      abbr ++ ('<' :: 'A' :: 'B' :: 'R' :: '>' :: replace_abbr_go abbr abbr.length (some c) cs)
    else c :: replace_abbr_go abbr 0 (some c) cs

/-- The abbreviation set of `TextProcessor.__init__` (source-literal
order; see the section comment on set-iteration order). -/
def abbreviations : List (List Char) :=
  (["mr", "mrs", "ms", "dr", "prof", "sr", "jr",
    "vs", "etc", "inc", "ltd", "corp", "co",
    "st", "ave", "blvd", "dept", "univ",
    "jan", "feb", "mar", "apr", "jun", "jul", "aug", "sep", "oct", "nov", "dec",
    "mon", "tue", "wed", "thu", "fri", "sat", "sun",
    "no", "vol", "fig", "ed", "est", "approx"]).map String.data

/-- `TextProcessor._protect_abbreviations`. -/
def protect_abbreviations (s : List Char) : List Char :=
  abbreviations.foldl (fun acc abbr => replace_abbr_go abbr 0 none acc) s

/-- `str.replace(pat, rep)`: left-to-right, non-overlapping. -/
def replace_all_go (pat rep : List Char) : ℕ → List Char → List Char
  | _, [] => []
  | skip+1, _ :: cs => replace_all_go pat rep skip cs
  | 0, c :: cs =>
    if pat.isPrefixOf (c :: cs) && decide (pat ≠ []) then
      rep ++ replace_all_go pat rep (pat.length - 1) cs
    else c :: replace_all_go pat rep 0 cs

/-- `TextProcessor._restore_abbreviations`: `·.replace('<ABR>', '.')`. -/
def restore_abbreviations (s : List Char) : List Char :=
  replace_all_go "<ABR>".data ".".data 0 s

def is_cap_head : List Char → Bool
  | [] => false
  | c :: _ => isUpperAZ c

/-- The scanner of `re.split(r'(?<=[.!?])\s+(?=[A-Z])|(?<=[.!?])$', ·)`:
`current` is the segment being accumulated (reversed), `skip` the number of
separator characters still to consume, `prev` the previous character (the
look-behind).  A separator is a whitespace run preceded by a terminator and
followed by an ASCII capital; the zero-width end-of-string alternative
appends an empty trailing segment. -/
def split_aux : List Char → ℕ → Option Char → List Char → List (List Char)
  | current, skip+1, _, c :: cs => split_aux current skip (some c) cs
  | current, _+1, _, [] => [current.reverse]
  | current, 0, prev, [] =>
    if is_term_opt prev then [current.reverse, []] else [current.reverse]
  | current, 0, prev, c :: cs =>
    if is_term_opt prev && isPySpace c &&
        is_cap_head ((c :: cs).dropWhile (fun d => isPySpace d)) then
      current.reverse ::
        split_aux [] (((c :: cs).takeWhile (fun d => isPySpace d)).length - 1) (some c) cs
    else split_aux (c :: current) 0 (some c) cs

def split_regex (t : List Char) : List (List Char) := split_aux [] 0 none t

/-- `str.split()` (whitespace split, empty pieces dropped), for the
`len(s.split()) >= 3` filter. -/
def ws_runs_aux : List Char → List Char → List (List Char)
  | acc, [] => if acc = [] then [] else [acc.reverse]
  | acc, c :: cs =>
    if isPySpace c then
      if acc = [] then ws_runs_aux [] cs else acc.reverse :: ws_runs_aux [] cs
    else ws_runs_aux (c :: acc) cs

def py_split (s : List Char) : List (List Char) := ws_runs_aux [] s

/-- `TextProcessor.split_into_sentences`. -/
def split_into_sentences (text : List Char) : List (List Char) :=
  if pyStrip text = [] then []
  else
    let normalized := normalize_ws text
    let protected_text := protect_abbreviations normalized
    let raw := split_regex protected_text
    let sentences := (raw.filter (fun s => pyStrip s ≠ [])).map
        (fun s => restore_abbreviations (pyStrip s))
    sentences.filter (fun s => 3 ≤ (py_split s).length)

/-- `' '.join` on character lists. -/
def join_sp : List (List Char) → List Char
  | [] => []
  | [s] => s
  | s :: s' :: rest => s ++ ' ' :: join_sp (s' :: rest)

/-! ### Idempotence machinery for the segmenter -/

/-- Scanning `t` from look-behind context `prev`, the split regex's first
alternative never fires (no internal sentence-boundary site). -/
def no_sep_from : Option Char → List Char → Bool
  | _, [] => true
  | prev, c :: cs =>
    !(is_term_opt prev && isPySpace c &&
        is_cap_head ((c :: cs).dropWhile (fun d => isPySpace d))) &&
      no_sep_from (some c) cs

/-- Single-spaced checker: only `' '` as whitespace and no two adjacent
spaces; the initial flag `true` also forbids a leading space. -/
def ss_aux : Bool → List Char → Bool
  | _, [] => true
  | prevSp, c :: cs =>
    if c = ' ' then (!prevSp) && ss_aux true cs
    else if isPySpace c then false
    else ss_aux false cs

/-- Whether the last character scanned is a space (`b` for the empty
scan). -/
def last_sp (b : Bool) : List Char → Bool
  | [] => b
  | c :: cs => last_sp (decide (c = ' ')) cs

/-- One sentence in the segmenter's output form (all checks decidable). -/
def sentence_ok (s : List Char) : Bool :=
  decide (s ≠ []) && ss_aux true s && !(last_sp true s) &&
  decide (pyStrip (protect_abbreviations s) = protect_abbreviations s) &&
  decide (restore_abbreviations (protect_abbreviations s) = s) &&
  no_sep_from none (protect_abbreviations s) &&
  decide (3 ≤ (py_split s).length)

/-- After protection, every sentence but the last ends with `[.!?]`
(checked on the list of protected sentences). -/
def pieces_term_ok : List (List Char) → Bool
  | [] => true
  | [_] => true
  | p :: p' :: rest => is_term_opt p.getLast? && pieces_term_ok (p' :: rest)

/-- The look-behind context after scanning `t` from context `prev`. -/
def lastc : Option Char → List Char → Option Char
  | prev, [] => prev
  | _, [c] => some c
  | prev, _ :: cs => lastc prev cs

theorem cap_not_ws (c : Char) (h : isUpperAZ c = true) : isPySpace c = false := by
  cases hws : isPySpace c with
  | false => rfl
  | true =>
    exfalso
    simp only [isPySpace, decide_eq_true_eq] at hws
    rcases hws with rfl | rfl | rfl | rfl | rfl | rfl <;> exact absurd h (by decide)

theorem term_not_ws (c : Char) (h : is_term c = true) : isPySpace c = false := by
  simp only [is_term, Bool.or_eq_true, decide_eq_true_eq] at h
  rcases h with (rfl | rfl) | rfl <;> decide

theorem lastc_prev_irrel (cs : List Char) :
    ∀ (c0 : Char) (p p' : Option Char), lastc p (c0 :: cs) = lastc p' (c0 :: cs) := by
  induction cs with
  | nil => intro c0 p p'; rfl
  | cons d ds ih => intro c0 p p'; exact ih d p p'

theorem lastc_cons (prev : Option Char) (c : Char) (cs : List Char) :
    lastc prev (c :: cs) = lastc (some c) cs := by
  cases cs with
  | nil => rfl
  | cons d ds => exact lastc_prev_irrel ds d prev (some c)

theorem lastc_eq_getLast? (t : List Char) (h : t ≠ []) (prev : Option Char) :
    lastc prev t = t.getLast? := by
  induction t generalizing prev with
  | nil => exact absurd rfl h
  | cons c cs ih =>
    cases cs with
    | nil => rfl
    | cons d ds =>
      rw [lastc_cons, ih (by simp) (some c), List.getLast?_cons_cons]

theorem no_sep_from_congr (t : List Char) (p p' : Option Char)
    (h : is_term_opt p = is_term_opt p') : no_sep_from p t = no_sep_from p' t := by
  cases t with
  | nil => rfl
  | cons c cs => simp [no_sep_from, h]

theorem split_aux_no_sep (t : List Char) :
    ∀ (current : List Char) (prev : Option Char),
    no_sep_from prev t = true →
    split_aux current 0 prev t =
      if is_term_opt (lastc prev t) then [current.reverse ++ t, []]
      else [current.reverse ++ t] := by
  induction t with
  | nil =>
    intro current prev _
    simp [split_aux, lastc]
  | cons c cs ih =>
    intro current prev h
    simp only [no_sep_from, Bool.and_eq_true, Bool.not_eq_true'] at h
    obtain ⟨hcond, hrest⟩ := h
    rw [split_aux, if_neg (by rw [hcond]; exact Bool.false_ne_true)]
    rw [ih (c :: current) (some c) hrest, lastc_cons]
    split_ifs <;> simp

theorem length_dropWhile_le (p : Char → Bool) (l : List Char) :
    (l.dropWhile p).length ≤ l.length := by
  induction l with
  | nil => simp
  | cons c cs ih =>
    rw [List.dropWhile_cons]
    split_ifs <;> simp <;> omega

theorem dropWhile_eq_self_of_head (p : Char → Bool) (l : List Char)
    (h : ∀ c, l.head? = some c → p c = false) : l.dropWhile p = l := by
  cases l with
  | nil => rfl
  | cons c cs =>
    rw [List.dropWhile_cons, if_neg]
    simp [h c rfl]

theorem pyStrip_eq_self_of_edges (t : List Char)
    (hh : ∀ c, t.head? = some c → isPySpace c = false)
    (hl : ∀ c, t.getLast? = some c → isPySpace c = false) :
    pyStrip t = t := by
  unfold pyStrip
  rw [dropWhile_eq_self_of_head _ _ hh]
  rw [dropWhile_eq_self_of_head _ _ (by
    intro c hc
    apply hl
    rwa [← List.head?_reverse] )]
  exact List.reverse_reverse t

theorem head_not_ws_of_dropWhile_eq (l : List Char)
    (h : l.dropWhile isPySpace = l) :
    ∀ c, l.head? = some c → isPySpace c = false := by
  intro c hc
  by_contra hws
  simp only [Bool.not_eq_false] at hws
  cases l with
  | nil => simp at hc
  | cons d ds =>
    simp only [List.head?_cons, Option.some.injEq] at hc
    rw [← hc] at hws
    have h1 : (d :: ds).dropWhile isPySpace = ds.dropWhile isPySpace := by
      rw [List.dropWhile_cons, if_pos hws]
    have h2 : (ds.dropWhile isPySpace).length ≤ ds.length := length_dropWhile_le _ _
    rw [h1] at h
    have := congrArg List.length h
    simp at this
    omega

theorem pyStrip_self_parts (t : List Char) (h : pyStrip t = t) :
    t.dropWhile isPySpace = t ∧
      t.reverse.dropWhile isPySpace = t.reverse := by
  unfold pyStrip at h
  have h' : (t.dropWhile isPySpace).reverse.dropWhile isPySpace = t.reverse := by
    have := congrArg List.reverse h
    rwa [List.reverse_reverse] at this
  have hlen1 : (t.dropWhile isPySpace).length ≤ t.length := length_dropWhile_le _ _
  have hlen3 : t.length ≤ (t.dropWhile isPySpace).length := by
    have hc := congrArg List.length h'
    rw [List.length_reverse] at hc
    have hd : ((t.dropWhile isPySpace).reverse.dropWhile isPySpace).length ≤
        (t.dropWhile isPySpace).reverse.length := length_dropWhile_le _ _
    rw [List.length_reverse] at hd
    omega
  have hdw : t.dropWhile isPySpace = t :=
    List.Sublist.eq_of_length (t.dropWhile_sublist isPySpace)
      (le_antisymm hlen1 hlen3)
  rw [hdw] at h'
  exact ⟨hdw, h'⟩

theorem pyStrip_self_head (t : List Char) (h : pyStrip t = t) :
    ∀ c, t.head? = some c → isPySpace c = false :=
  head_not_ws_of_dropWhile_eq t (pyStrip_self_parts t h).1

theorem pyStrip_self_last (t : List Char) (h : pyStrip t = t) :
    ∀ c, t.getLast? = some c → isPySpace c = false := by
  intro c hc
  exact head_not_ws_of_dropWhile_eq t.reverse (pyStrip_self_parts t h).2 c
    (by rwa [List.head?_reverse])

theorem dropWhile_ws_append (u z : List Char) (hne : u.dropWhile isPySpace ≠ []) :
    (u ++ z).dropWhile (fun d => isPySpace d) =
      u.dropWhile (fun d => isPySpace d) ++ z := by
  rw [List.dropWhile_append, if_neg]
  simpa [List.isEmpty_iff] using hne

theorem dropWhile_ne_nil_of_last (u : List Char) (hne : u ≠ [])
    (h : ∀ c, u.getLast? = some c → isPySpace c = false) :
    u.dropWhile isPySpace ≠ [] := by
  induction u with
  | nil => exact absurd rfl hne
  | cons c cs ih =>
    rw [List.dropWhile_cons]
    split_ifs with hws
    · cases cs with
      | nil => rw [h c rfl] at hws; exact absurd hws (by simp)
      | cons d ds =>
        exact ih (by simp) (fun e he => h e (by rwa [List.getLast?_cons_cons]))
    · simp

/-- Scanning a piece that contains no separator site, ends in a terminator
and is followed by a single space and a capital-headed tail: the piece is
closed exactly at the join and scanning resumes on the tail. -/
theorem split_aux_piece (p : List Char) :
    ∀ (tail : List Char) (current : List Char) (prev : Option Char),
    no_sep_from prev p = true →
    p ≠ [] →
    (∀ c, p.getLast? = some c → isPySpace c = false) →
    is_term_opt p.getLast? = true →
    is_cap_head tail = true →
    split_aux current 0 prev (p ++ ' ' :: tail) =
      (current.reverse ++ p) :: split_aux [] 0 (some ' ') tail := by
  induction p with
  | nil => intro tail current prev _ hne _ _ _; exact absurd rfl hne
  | cons c cs ih =>
    intro tail current prev hns _ hlast hterm hcap
    obtain ⟨r, rs, rfl⟩ : ∃ r rs, tail = r :: rs := by
      cases tail with
      | nil => exact absurd hcap (by simp [is_cap_head])
      | cons r rs => exact ⟨r, rs, rfl⟩
    have hr : isUpperAZ r = true := by simpa [is_cap_head] using hcap
    have hrws : isPySpace r = false := cap_not_ws r hr
    cases cs with
    | nil =>
      have hc_term : is_term c = true := by simpa [is_term_opt] using hterm
      have hc_ws : isPySpace c = false := term_not_ws c hc_term
      have hsp : isPySpace ' ' = true := rfl
      show split_aux current 0 prev (c :: ' ' :: r :: rs) = _
      rw [split_aux, if_neg (by simp [hc_ws])]
      rw [split_aux, if_pos]
      · have htake : ((' ' :: r :: rs).takeWhile (fun d => isPySpace d)).length - 1 = 0 := by
          simp [List.takeWhile_cons, hsp, hrws]
        rw [htake]
        simp
      · have hdrop : (' ' :: r :: rs).dropWhile (fun d => isPySpace d) = r :: rs := by
          simp [List.dropWhile_cons, hsp, hrws]
        rw [hdrop]
        simp [is_term_opt, hc_term, is_cap_head, hr, hsp]
    | cons c' cs' =>
      rw [no_sep_from, Bool.and_eq_true, Bool.not_eq_true'] at hns
      obtain ⟨hcond, hrest⟩ := hns
      have hlast' : ∀ e, (c' :: cs').getLast? = some e → isPySpace e = false :=
        fun e he => hlast e (by rwa [List.getLast?_cons_cons])
      have hterm' : is_term_opt (c' :: cs').getLast? = true := by
        rwa [List.getLast?_cons_cons] at hterm
      have hdw : (c :: c' :: cs').dropWhile (fun d => isPySpace d) ≠ [] :=
        dropWhile_ne_nil_of_last _ (by simp) hlast
      obtain ⟨d, ds, hds⟩ : ∃ d ds,
          (c :: c' :: cs').dropWhile (fun d => isPySpace d) = d :: ds := by
        cases hx : (c :: c' :: cs').dropWhile (fun d => isPySpace d) with
        | nil => exact absurd hx hdw
        | cons d ds => exact ⟨d, ds, rfl⟩
      have hcap_eq : is_cap_head ((c :: ((c' :: cs') ++ ' ' :: r :: rs)).dropWhile
          (fun d => isPySpace d)) =
          is_cap_head ((c :: c' :: cs').dropWhile (fun d => isPySpace d)) := by
        have h1 : (c :: ((c' :: cs') ++ ' ' :: r :: rs)).dropWhile
            (fun d => isPySpace d) =
            (c :: c' :: cs').dropWhile (fun d => isPySpace d) ++ ' ' :: r :: rs := by
          show ((c :: c' :: cs') ++ ' ' :: r :: rs).dropWhile (fun d => isPySpace d) = _
          exact dropWhile_ws_append _ _ hdw
        rw [h1, hds]
        rfl
      have hcond' : (is_term_opt prev && isPySpace c &&
          is_cap_head ((c :: ((c' :: cs') ++ ' ' :: r :: rs)).dropWhile
            (fun d => isPySpace d))) = false := by
        rw [hcap_eq]
        exact hcond
      show split_aux current 0 prev (c :: ((c' :: cs') ++ ' ' :: r :: rs)) = _
      rw [split_aux, if_neg (by rw [hcond']; exact Bool.false_ne_true)]
      rw [ih (r :: rs) (c :: current) (some c) hrest (by simp) hlast' hterm' hcap]
      simp

/-- Whether the split's zero-width end-of-string alternative fires on the
joined text: the last piece ends in a terminator. -/
def trailing_empty (P : List (List Char)) : Bool :=
  match P.getLast? with
  | some q => is_term_opt q.getLast?
  | none => false

theorem is_cap_head_join (q : List Char) (rest : List (List Char)) (hq : q ≠ []) :
    is_cap_head (join_sp (q :: rest)) = is_cap_head q := by
  cases rest with
  | nil => rfl
  | cons q' rest' =>
    cases q with
    | nil => exact absurd rfl hq
    | cons c cq => rfl

theorem trailing_empty_cons_cons (p p' : List Char) (P : List (List Char)) :
    trailing_empty (p :: p' :: P) = trailing_empty (p' :: P) := by
  simp [trailing_empty, List.getLast?_cons_cons]

theorem split_join_pieces :
    ∀ (P : List (List Char)) (prev : Option Char),
    is_term_opt prev = false →
    P ≠ [] →
    (∀ p ∈ P, p ≠ [] ∧ (∀ c, p.getLast? = some c → isPySpace c = false) ∧
      no_sep_from none p = true) →
    (∀ q ∈ P.tail, is_cap_head q = true) →
    pieces_term_ok P = true →
    split_aux [] 0 prev (join_sp P) =
      P ++ (if trailing_empty P then [[]] else []) := by
  intro P
  induction P with
  | nil => intro prev _ h; exact absurd rfl h
  | cons p P' ih =>
    intro prev hprev _ hok hcap hterm
    obtain ⟨hpne, hplast, hpns⟩ := hok p (List.mem_cons_self p P')
    cases P' with
    | nil =>
      show split_aux [] 0 prev p = _
      rw [split_aux_no_sep p [] prev
        ((no_sep_from_congr p prev none (by rw [hprev]; rfl)).trans hpns ▸ rfl)]
      · rw [lastc_eq_getLast? p hpne prev]
        simp only [List.reverse_nil, List.nil_append]
        cases hq : p.getLast? with
        | none => simp [trailing_empty, is_term_opt, hq]
        | some c =>
          simp only [trailing_empty, List.getLast?_singleton, hq, is_term_opt]
          split_ifs <;> rfl
    | cons p' P'' =>
      obtain ⟨hp'ne, _, _⟩ := hok p' (by simp)
      have hterm1 : is_term_opt p.getLast? = true := by
        rw [pieces_term_ok, Bool.and_eq_true] at hterm
        exact hterm.1
      have hterm2 : pieces_term_ok (p' :: P'') = true := by
        rw [pieces_term_ok, Bool.and_eq_true] at hterm
        exact hterm.2
      show split_aux [] 0 prev (p ++ ' ' :: join_sp (p' :: P'')) = _
      rw [split_aux_piece p (join_sp (p' :: P'')) [] prev
        (by rw [no_sep_from_congr p prev none (by rw [hprev]; rfl)]; exact hpns)
        hpne hplast hterm1
        (by rw [is_cap_head_join p' P'' hp'ne]; exact hcap p' (by simp))]
      rw [ih (some ' ') rfl (by simp)
        (fun q hq => hok q (List.mem_cons_of_mem p hq))
        (fun q hq => hcap q (List.mem_cons_of_mem p' hq))
        hterm2]
      rw [trailing_empty_cons_cons]
      simp

theorem replace_abbr_go_congr (abbr : List Char) (t : List Char) (p p' : Option Char)
    (h : boundary_free p = boundary_free p') :
    replace_abbr_go abbr 0 p t = replace_abbr_go abbr 0 p' t := by
  cases t with
  | nil => rfl
  | cons c cs => simp only [replace_abbr_go, h]

theorem ci_no_match_across (abbr x y : List Char) (hsp : ' ' ∉ abbr)
    (hlen : x.length < abbr.length + 1) :
    ((x ++ ' ' :: y).take (abbr.length + 1)).map Char.toLower ≠ abbr ++ ['.'] := by
  intro heq
  have h1 : (x ++ ' ' :: y).take (abbr.length + 1) =
      x ++ (' ' :: y).take (abbr.length + 1 - x.length) := by
    rw [List.take_append_eq_append_take,
      List.take_all_of_le (by omega : x.length ≤ abbr.length + 1)]
  have h2 : (' ' :: y).take (abbr.length + 1 - x.length) =
      ' ' :: y.take (abbr.length - x.length) := by
    rw [show abbr.length + 1 - x.length = (abbr.length - x.length) + 1 by omega]
    rfl
  have hmem : ' ' ∈ ((x ++ ' ' :: y).take (abbr.length + 1)).map Char.toLower := by
    rw [h1, h2]
    rw [List.map_append]
    apply List.mem_append_right
    rw [List.map_cons]
    exact List.mem_cons_self _ _
  rw [heq] at hmem
  rcases List.mem_append.mp hmem with h | h
  · exact hsp h
  · exact absurd (List.mem_singleton.mp h) (by decide)

theorem replace_abbr_go_append_space (abbr : List Char) (hsp : ' ' ∉ abbr)
    (y : List Char) :
    ∀ (x : List Char) (skip : ℕ) (prev : Option Char), skip ≤ x.length →
    replace_abbr_go abbr skip prev (x ++ ' ' :: y) =
      replace_abbr_go abbr skip prev x ++ ' ' :: replace_abbr_go abbr 0 (some ' ') y := by
  intro x
  induction x with
  | nil =>
    intro skip prev hskip
    obtain rfl : skip = 0 := Nat.le_zero.mp (by simpa using hskip)
    have hci := ci_no_match_across abbr [] y hsp (by simp)
    simp only [List.nil_append] at hci ⊢
    have hunfold : replace_abbr_go abbr 0 prev (' ' :: y) =
        if boundary_free prev && decide (((' ' :: y).take (abbr.length + 1)).map
            Char.toLower = abbr ++ ['.'])
        then abbr ++ ('<' :: 'A' :: 'B' :: 'R' :: '>' ::
          replace_abbr_go abbr abbr.length (some ' ') y)
        else ' ' :: replace_abbr_go abbr 0 (some ' ') y := rfl
    rw [hunfold, if_neg (by
      intro hcontra
      rw [Bool.and_eq_true] at hcontra
      exact hci (of_decide_eq_true hcontra.2))]
    rfl
  | cons c x' ih =>
    intro skip prev hskip
    cases skip with
    | succ k =>
      show replace_abbr_go abbr (k+1) prev (c :: (x' ++ ' ' :: y)) = _
      rw [replace_abbr_go]
      rw [ih k (some c) (by simp at hskip; omega)]
      rw [show replace_abbr_go abbr (k+1) prev (c :: x') =
        replace_abbr_go abbr k (some c) x' from by rw [replace_abbr_go]]
    | zero =>
      by_cases hfit : abbr.length + 1 ≤ (c :: x').length
      · have htake : ((c :: x') ++ ' ' :: y).take (abbr.length + 1) =
            (c :: x').take (abbr.length + 1) := by
          rw [List.take_append_eq_append_take,
            show abbr.length + 1 - (c :: x').length = 0 by omega]
          simp
        have htake' : (c :: (x' ++ ' ' :: y)).take (abbr.length + 1) =
            (c :: x').take (abbr.length + 1) := htake
        show replace_abbr_go abbr 0 prev (c :: (x' ++ ' ' :: y)) = _
        simp only [replace_abbr_go, htake']
        split_ifs with hc
        · rw [ih abbr.length (some c) (by simp at hfit; omega)]
          simp
        · rw [ih 0 (some c) (by omega)]
          rfl
      · push_neg at hfit
        have hjoined := ci_no_match_across abbr (c :: x') y hsp hfit
        have hjoined' : ((c :: (x' ++ ' ' :: y)).take (abbr.length + 1)).map
            Char.toLower ≠ abbr ++ ['.'] := hjoined
        have hstand : ((c :: x').take (abbr.length + 1)).map Char.toLower ≠
            abbr ++ ['.'] := by
          intro heq
          have hl := congrArg List.length heq
          simp only [List.length_map, List.length_take, List.length_append,
            List.length_singleton] at hl
          omega
        show replace_abbr_go abbr 0 prev (c :: (x' ++ ' ' :: y)) = _
        rw [replace_abbr_go, if_neg (by
          intro hcontra
          rw [Bool.and_eq_true] at hcontra
          exact hjoined' (of_decide_eq_true hcontra.2))]
        rw [show replace_abbr_go abbr 0 prev (c :: x') =
          c :: replace_abbr_go abbr 0 (some c) x' from by
            rw [replace_abbr_go, if_neg (by
              intro hcontra
              rw [Bool.and_eq_true] at hcontra
              exact hstand (of_decide_eq_true hcontra.2))]]
        rw [ih 0 (some c) (by omega)]
        rfl

theorem foldl_replace_nil :
    ∀ (as : List (List Char)),
      as.foldl (fun acc abbr => replace_abbr_go abbr 0 none acc) [] = [] := by
  intro as
  induction as with
  | nil => rfl
  | cons a as ih => simpa [List.foldl_cons, replace_abbr_go] using ih

theorem foldl_replace_join (as : List (List Char)) (h : ∀ a ∈ as, ' ' ∉ a) :
    ∀ x y, as.foldl (fun acc abbr => replace_abbr_go abbr 0 none acc) (x ++ ' ' :: y) =
      as.foldl (fun acc abbr => replace_abbr_go abbr 0 none acc) x ++
        ' ' :: as.foldl (fun acc abbr => replace_abbr_go abbr 0 none acc) y := by
  induction as with
  | nil => intro x y; rfl
  | cons a as ih =>
    intro x y
    simp only [List.foldl_cons]
    rw [replace_abbr_go_append_space a (h a (List.mem_cons_self a as)) y x 0 none
      (by omega)]
    rw [replace_abbr_go_congr a y (some ' ') none (by decide)]
    exact ih (fun b hb => h b (List.mem_cons_of_mem a hb)) _ _

theorem protect_join (x y : List Char) :
    protect_abbreviations (x ++ ' ' :: y) =
      protect_abbreviations x ++ ' ' :: protect_abbreviations y :=
  foldl_replace_join abbreviations (by decide) x y

theorem protect_join_sp (L : List (List Char)) :
    protect_abbreviations (join_sp L) = join_sp (L.map protect_abbreviations) := by
  induction L with
  | nil => exact foldl_replace_nil abbreviations
  | cons s L ih =>
    cases L with
    | nil => rfl
    | cons s' L' =>
      show protect_abbreviations (s ++ ' ' :: join_sp (s' :: L')) = _
      rw [protect_join, ih]
      rfl

theorem ss_mem_space : ∀ (s : List Char) (b : Bool), ss_aux b s = true →
    ∀ c ∈ s, isPySpace c = true → c = ' ' := by
  intro s
  induction s with
  | nil => intro b _ c hc; simp at hc
  | cons d ds ih =>
    intro b hss c hc hws
    rw [ss_aux] at hss
    by_cases hd : d = ' '
    · rw [if_pos hd] at hss
      rw [Bool.and_eq_true] at hss
      rcases List.mem_cons.mp hc with rfl | hc'
      · exact hd
      · exact ih true hss.2 c hc' hws
    · rw [if_neg hd] at hss
      by_cases hd2 : isPySpace d = true
      · rw [if_pos hd2] at hss
        exact absurd hss (by simp)
      · rw [if_neg hd2] at hss
        rcases List.mem_cons.mp hc with rfl | hc'
        · exact absurd hws hd2
        · exact ih false hss c hc' hws

theorem ss_head_not_ws (s : List Char) (h : ss_aux true s = true) :
    ∀ c, s.head? = some c → isPySpace c = false := by
  intro c hc
  cases s with
  | nil => simp at hc
  | cons d ds =>
    simp only [List.head?_cons, Option.some.injEq] at hc
    rw [← hc]
    rw [ss_aux] at h
    by_cases hd : d = ' '
    · rw [if_pos hd] at h
      rw [Bool.and_eq_true] at h
      exact absurd h.1 (by simp)
    · by_cases hd2 : isPySpace d = true
      · rw [if_neg hd, if_pos hd2] at h
        exact absurd h (by simp)
      · simpa using hd2

theorem last_sp_eq_getLast? : ∀ (s : List Char) (b : Bool),
    last_sp b s = (match s.getLast? with
      | some c => decide (c = ' ')
      | none => b) := by
  intro s
  induction s with
  | nil => intro b; rfl
  | cons c cs ih =>
    intro b
    rw [last_sp, ih]
    cases cs with
    | nil => rfl
    | cons d ds =>
      cases hx : (d :: ds).getLast? with
      | none => simp at hx
      | some e => rw [List.getLast?_cons_cons, hx]

theorem ss_append : ∀ (x z : List Char) (b : Bool),
    ss_aux b (x ++ z) = (ss_aux b x && ss_aux (last_sp b x) z) := by
  intro x
  induction x with
  | nil => intro z b; simp [ss_aux, last_sp]
  | cons c cx ih =>
    intro z b
    by_cases h1 : c = ' '
    · rw [show ss_aux b ((c :: cx) ++ z) = ((!b) && ss_aux true (cx ++ z)) from by
        rw [List.cons_append, ss_aux, if_pos h1]]
      rw [show ss_aux b (c :: cx) = ((!b) && ss_aux true cx) from by
        rw [ss_aux, if_pos h1]]
      rw [show last_sp b (c :: cx) = last_sp true cx from by
        rw [last_sp, show decide (c = ' ') = true from by simp [h1]]]
      rw [ih z true, Bool.and_assoc]
    · by_cases h2 : isPySpace c = true
      · rw [show ss_aux b ((c :: cx) ++ z) = false from by
          rw [List.cons_append, ss_aux, if_neg h1, if_pos h2]]
        rw [show ss_aux b (c :: cx) = false from by
          rw [ss_aux, if_neg h1, if_pos h2]]
        simp
      · rw [show ss_aux b ((c :: cx) ++ z) = ss_aux false (cx ++ z) from by
          rw [List.cons_append, ss_aux, if_neg h1, if_neg h2]]
        rw [show ss_aux b (c :: cx) = ss_aux false cx from by
          rw [ss_aux, if_neg h1, if_neg h2]]
        rw [show last_sp b (c :: cx) = last_sp false cx from by
          rw [last_sp, show decide (c = ' ') = false from by simp [h1]]]
        rw [ih z false]

theorem squeeze_of_ss : ∀ (t : List Char) (b b' : Bool),
    ss_aux b t = true → (b' = true → b = true) → squeeze_aux b' t = t := by
  intro t
  induction t with
  | nil => intro b b' _ _; rfl
  | cons c cs ih =>
    intro b b' hss himp
    rw [ss_aux] at hss
    rw [squeeze_aux]
    by_cases h1 : c = ' '
    · rw [if_pos h1] at hss
      rw [Bool.and_eq_true] at hss
      have hb' : b' = false := by
        cases hb' : b'
        · rfl
        · have hb := himp hb'
          rw [hb] at hss
          exact absurd hss.1 (by simp)
      rw [if_pos (show isPySpace c = true from by rw [h1]; rfl)]
      rw [if_neg (by simp [hb'])]
      rw [h1]
      rw [ih true true hss.2 (fun _ => rfl)]
    · by_cases h2 : isPySpace c = true
      · rw [if_neg h1, if_pos h2] at hss
        exact absurd hss (by simp)
      · rw [if_neg h1, if_neg h2] at hss
        rw [if_neg h2]
        rw [ih false false hss (by simp)]

theorem join_sp_ne_nil (s : List Char) (rest : List (List Char)) (h : s ≠ []) :
    join_sp (s :: rest) ≠ [] := by
  cases rest with
  | nil => exact h
  | cons r rs =>
    show s ++ ' ' :: join_sp (r :: rs) ≠ []
    simp

theorem join_sp_head? (s : List Char) (rest : List (List Char)) (h : s ≠ []) :
    (join_sp (s :: rest)).head? = s.head? := by
  cases rest with
  | nil => rfl
  | cons r rs =>
    cases s with
    | nil => exact absurd rfl h
    | cons c cx => rfl

theorem join_last_not_ws : ∀ (L : List (List Char)),
    (∀ s ∈ L, s ≠ [] ∧ (∀ c, s.getLast? = some c → isPySpace c = false)) →
    ∀ c, (join_sp L).getLast? = some c → isPySpace c = false := by
  intro L
  induction L with
  | nil => intro _ c hc; simp [join_sp] at hc
  | cons s rest ih =>
    intro hall c hc
    cases rest with
    | nil => exact (hall s (by simp)).2 c hc
    | cons r rs =>
      obtain ⟨hrne, _⟩ := hall r (by simp)
      have hjoin_ne : join_sp (r :: rs) ≠ [] := join_sp_ne_nil r rs hrne
      rw [show join_sp (s :: r :: rs) = s ++ ' ' :: join_sp (r :: rs) from rfl] at hc
      rw [List.getLast?_append_cons] at hc
      rw [show (' ' :: join_sp (r :: rs) : List Char) = [' '] ++ join_sp (r :: rs)
        from rfl] at hc
      rw [List.getLast?_append_of_ne_nil [' '] hjoin_ne] at hc
      exact ih (fun q hq => hall q (List.mem_cons_of_mem s hq)) c hc

theorem ss_join : ∀ (L : List (List Char)),
    (∀ s ∈ L, s ≠ [] ∧ ss_aux true s = true ∧ last_sp true s = false) →
    ss_aux true (join_sp L) = true := by
  intro L
  induction L with
  | nil => intro _; rfl
  | cons s rest ih =>
    intro hall
    cases rest with
    | nil => exact (hall s (by simp)).2.1
    | cons r rs =>
      obtain ⟨hsne, hss, hlast⟩ := hall s (by simp)
      show ss_aux true (s ++ ' ' :: join_sp (r :: rs)) = true
      rw [ss_append, hss, hlast, Bool.true_and]
      rw [ss_aux, if_pos rfl]
      simp only [Bool.not_false, Bool.true_and]
      exact ih (fun q hq => hall q (List.mem_cons_of_mem s hq))

theorem normalize_ws_join (L : List (List Char))
    (hall : ∀ s ∈ L, s ≠ [] ∧ ss_aux true s = true ∧ last_sp true s = false) :
    normalize_ws (join_sp L) = join_sp L := by
  have hssj : ss_aux true (join_sp L) = true := ss_join L hall
  have hsqueeze : squeeze_aux false (join_sp L) = join_sp L :=
    squeeze_of_ss _ true false hssj (by simp)
  have hlastws : ∀ c, (join_sp L).getLast? = some c → isPySpace c = false := by
    apply join_last_not_ws
    intro s hs
    obtain ⟨hne, hss, hlast⟩ := hall s hs
    refine ⟨hne, fun c hc => ?_⟩
    have hls := last_sp_eq_getLast? s true
    rw [hc] at hls
    rw [hlast] at hls
    have hcsp : c ≠ ' ' := by
      intro hcc
      rw [hcc] at hls
      simp at hls
    cases hx : isPySpace c
    · rfl
    · exact absurd (ss_mem_space s true hss c
        (by
          cases s with
          | nil => simp at hc
          | cons d ds => exact List.mem_of_mem_getLast? hc) hx) hcsp
  unfold normalize_ws
  rw [hsqueeze]
  cases hL : L with
  | nil => rfl
  | cons s rest =>
    obtain ⟨hne, hss, _⟩ := hall s (by rw [hL]; simp)
    apply pyStrip_eq_self_of_edges
    · intro c hc
      rw [join_sp_head? s rest hne] at hc
      exact ss_head_not_ws s hss c hc
    · intro c hc
      rw [← hL] at hc
      exact hlastws c hc

theorem sentence_ok_spec (s : List Char) (h : sentence_ok s = true) :
    s ≠ [] ∧ ss_aux true s = true ∧ last_sp true s = false ∧
    pyStrip (protect_abbreviations s) = protect_abbreviations s ∧
    restore_abbreviations (protect_abbreviations s) = s ∧
    no_sep_from none (protect_abbreviations s) = true ∧
    3 ≤ (py_split s).length := by
  simp only [sentence_ok, Bool.and_eq_true, decide_eq_true_eq,
    Bool.not_eq_true'] at h
  exact ⟨h.1.1.1.1.1.1, h.1.1.1.1.1.2, h.1.1.1.1.2, h.1.1.1.2, h.1.1.2, h.1.2, h.2⟩

theorem list_map_eq_self (L : List (List Char)) (f : List Char → List Char)
    (h : ∀ s ∈ L, f s = s) : L.map f = L := by
  induction L with
  | nil => rfl
  | cons s rest ih =>
    rw [List.map_cons, h s (by simp), ih (fun q hq => h q (List.mem_cons_of_mem s hq))]

theorem list_map_map_eq_self (L : List (List Char))
    (f g : List Char → List Char) (h : ∀ s ∈ L, g (f s) = s) :
    (L.map f).map g = L := by
  induction L with
  | nil => rfl
  | cons s rest ih =>
    rw [List.map_cons, List.map_cons, h s (by simp),
      ih (fun q hq => h q (List.mem_cons_of_mem s hq))]

set_option maxHeartbeats 2000000 in
/-- C9 (amended): the segmenter is idempotent on sentence lists in its
output form: if every sentence is non-empty, single-spaced with no leading
or trailing whitespace, has at least 3 words, survives the abbreviation
protect/restore round trip unchanged (in particular contains no literal
`<ABR>` placeholder), contains no internal sentence-boundary site after
protection, and — after protection — every sentence but the first starts
with an ASCII capital and every sentence but the last ends in `.`, `!` or
`?`, then joining the sentences with single spaces and re-segmenting
yields exactly the same sentence list.  (The segmenter's own outputs have
this form unless the input text contained the literal `<ABR>` placeholder,
which the restore step turns into a spurious period — the
counterexample.) -/
theorem C9_rejoin_identity (L : List (List Char))
    (hok : ∀ s ∈ L, sentence_ok s = true)
    (hcap : ∀ q ∈ (L.map protect_abbreviations).tail, is_cap_head q = true)
    (hterm : pieces_term_ok (L.map protect_abbreviations) = true) :
    split_into_sentences (join_sp L) = L := by
  cases L with
  | nil => rfl
  | cons s rest =>
    have hspec := fun s' hs' => sentence_ok_spec s' (hok s' hs')
    have hnormL : ∀ s' ∈ s :: rest, s' ≠ [] ∧ ss_aux true s' = true ∧
        last_sp true s' = false :=
      fun s' hs' => ⟨(hspec s' hs').1, (hspec s' hs').2.1, (hspec s' hs').2.2.1⟩
    have hsne : s ≠ [] := (hspec s (by simp)).1
    have hlastws : ∀ c, (join_sp (s :: rest)).getLast? = some c →
        isPySpace c = false := by
      apply join_last_not_ws
      intro s' hs'
      obtain ⟨h1, h2, h3, _, _, _, _⟩ := hspec s' hs'
      refine ⟨h1, fun c hc => ?_⟩
      have hls := last_sp_eq_getLast? s' true
      rw [hc, h3] at hls
      have hcsp : c ≠ ' ' := fun hcc => by rw [hcc] at hls; simp at hls
      cases hx : isPySpace c
      · rfl
      · exact absurd (ss_mem_space s' true h2 c
          (List.mem_of_mem_getLast? hc) hx) hcsp
    have hstrip : pyStrip (join_sp (s :: rest)) = join_sp (s :: rest) := by
      apply pyStrip_eq_self_of_edges
      · intro c hc
        rw [join_sp_head? s rest hsne] at hc
        exact ss_head_not_ws s (hspec s (by simp)).2.1 c hc
      · exact hlastws
    have hne : join_sp (s :: rest) ≠ [] := join_sp_ne_nil s rest hsne
    have hnorm : normalize_ws (join_sp (s :: rest)) = join_sp (s :: rest) :=
      normalize_ws_join _ hnormL
    have hP : ∀ p ∈ (s :: rest).map protect_abbreviations, p ≠ [] ∧
        (∀ c, p.getLast? = some c → isPySpace c = false) ∧
        no_sep_from none p = true := by
      intro p hp
      obtain ⟨s', hs', rfl⟩ := List.mem_map.mp hp
      obtain ⟨h1, _, _, h4, h5, h6, _⟩ := hspec s' hs'
      refine ⟨?_, pyStrip_self_last _ h4, h6⟩
      intro hemp
      rw [hemp] at h5
      exact h1 (h5.symm.trans rfl)
    rw [split_into_sentences, if_neg (by rw [hstrip]; exact hne)]
    simp only [hnorm, protect_join_sp, split_regex]
    rw [split_join_pieces ((s :: rest).map protect_abbreviations) none rfl
      (by simp) hP hcap hterm]
    rw [List.filter_append]
    have htrail : (if trailing_empty ((s :: rest).map protect_abbreviations)
        then [([] : List Char)] else []).filter
          (fun t => decide (pyStrip t ≠ [])) = [] := by
      split_ifs <;> simp [pyStrip]
    rw [htrail, List.append_nil]
    have hfilter1 : ((s :: rest).map protect_abbreviations).filter
        (fun t => decide (pyStrip t ≠ [])) = (s :: rest).map protect_abbreviations := by
      apply List.filter_eq_self.mpr
      intro p hp
      obtain ⟨s', hs', rfl⟩ := List.mem_map.mp hp
      obtain ⟨h1, _, _, h4, h5, _, _⟩ := hspec s' hs'
      have hpne : protect_abbreviations s' ≠ [] := by
        intro hemp
        rw [hemp] at h5
        exact h1 (h5.symm.trans rfl)
      show decide (pyStrip (protect_abbreviations s') ≠ []) = true
      rw [h4]
      exact decide_eq_true hpne
    rw [hfilter1]
    have hmap : ((s :: rest).map protect_abbreviations).map
        (fun t => restore_abbreviations (pyStrip t)) = s :: rest := by
      apply list_map_map_eq_self
      intro s' hs'
      obtain ⟨_, _, _, h4, h5, _, _⟩ := hspec s' hs'
      rw [h4, h5]
    rw [hmap]
    apply List.filter_eq_self.mpr
    intro s' hs'
    exact decide_eq_true (hspec s' hs').2.2.2.2.2.2

/-- C9 witness: a concrete two-sentence list in output form re-segments to
itself. -/
theorem C9_witness :
    (∀ s ∈ (["This is sentence one.".data, "This is sentence two.".data] :
        List (List Char)), sentence_ok s = true) ∧
    (∀ q ∈ ((["This is sentence one.".data, "This is sentence two.".data] :
        List (List Char)).map protect_abbreviations).tail, is_cap_head q = true) ∧
    pieces_term_ok ((["This is sentence one.".data, "This is sentence two.".data] :
        List (List Char)).map protect_abbreviations) = true ∧
    split_into_sentences (join_sp
        ["This is sentence one.".data, "This is sentence two.".data]) =
      ["This is sentence one.".data, "This is sentence two.".data] :=
  ⟨by decide, by decide, by decide,
    C9_rejoin_identity ["This is sentence one.".data, "This is sentence two.".data]
      (by decide) (by decide) (by decide)⟩

/-- C9 counterexample: from the input text `"foo<ABR> Bar baz qux quux"` the
segmenter produces the one-sentence list `["foo. Bar baz qux quux"]` (the
restore step turns the literal placeholder into a period); joining (a
no-op) and re-segmenting yields `["Bar baz qux quux"]` — the spurious
sentence boundary splits off `"foo."`, which the 3-word filter then drops —
so the claimed idempotence fails although no abbreviation spans any join. -/
theorem C9_counterexample :
    split_into_sentences "foo<ABR> Bar baz qux quux".data =
      ["foo. Bar baz qux quux".data] ∧
    join_sp ["foo. Bar baz qux quux".data] = "foo. Bar baz qux quux".data ∧
    split_into_sentences (join_sp ["foo. Bar baz qux quux".data]) =
      ["Bar baz qux quux".data] ∧
    (["Bar baz qux quux".data] : List (List Char)) ≠
      ["foo. Bar baz qux quux".data] :=
  ⟨by decide, rfl, by decide, by decide⟩

end AiTextSpotter